import Mathlib

/-!
Verification development for the woozie workflow compiler.

The definitions below are a shallow embedding of the repository's core
pipeline, translated from `src/woozie/domain/action.py`,
`src/woozie/domain/workflowgraph.py` (the canonical builder; the repository
also ships an older draft in `src/workflowgraph.py`) and the XML emitter in
`src/oozieworkflow.py`.  Graphs mirror `networkx.DiGraph`: an
insertion-ordered duplicate-free node list plus an insertion-ordered
duplicate-free edge list.  Python exceptions are modelled by the `PyError`
type and fallible code returns `Except PyError`.
-/

namespace Woozie

/-- Decimal digit list (most significant first) of a natural number, as
produced by Python's `str(n)` used by the f-strings `f"fork-{count}"` and
`f"join-{count}"` in the source. Rendering of `0` is `"0"`. -/
def natStrData (n : Nat) : List Char :=
  if n = 0 then ['0'] else ((Nat.digits 10 n).map Nat.digitChar).reverse

/-- Decimal string of a natural number (Python `str(n)`). -/
def natStr (n : Nat) : String :=
  String.mk (natStrData n)

/-- Configuration payload values, covering the shapes the emitter in
`src/oozieworkflow.py` projects: a plain string field, a multi-valued
(list) field, a `configuration` block carrying a `properties` mapping, and
the attribute dictionary used by the first config entry. -/
inductive CVal where
  | s (v : String)
  | l (vs : List String)
  | props (ps : List (String × String))
  | attrs (a : List (String × String))
deriving DecidableEq, Repr

/-- The `Action` frozen dataclass of `src/action.py` /
`src/woozie/domain/action.py`: `name`, `action_type`, optional
`dependencies` and optional `config`.  Python's `dependencies` is a set of
names; it is modelled as a list in canonical order.  `config` is an ordered
mapping, modelled as an ordered association list. -/
structure Action where
  name : String
  action_type : String
  dependencies : Option (List String) := none
  config : Option (List (String × CVal)) := none
deriving DecidableEq, Repr

/-- The generated dataclass `__eq__` of `Action`: `eq=True` compares the
tuple of all four fields (`field(hash=False)` only excludes a field from
`__hash__`, not from `__eq__`). -/
def Action.pyEq (a b : Action) : Bool :=
  a.name == b.name && a.action_type == b.action_type &&
    a.dependencies == b.dependencies && a.config == b.config

/-- The key tuple of the generated dataclass `__hash__` of `Action`: the
fields not marked `hash=False`, i.e. `(name, action_type)`. -/
def Action.pyHashKey (a : Action) : String × String :=
  (a.name, a.action_type)

/-- The synthesized `Action(name=f"fork-{count}", action_type="fork")`. -/
def mkFork (count : Nat) : Action :=
  ⟨String.mk (['f', 'o', 'r', 'k', '-'] ++ natStrData count), "fork", none, none⟩

/-- The synthesized `Action(name=f"join-{count}", action_type="join")`. -/
def mkJoin (count : Nat) : Action :=
  ⟨String.mk (['j', 'o', 'i', 'n', '-'] ++ natStrData count), "join", none, none⟩

/-- The synthesized `Action(name="start", action_type="start")`. -/
def startAction : Action := ⟨"start", "start", none, none⟩

/-- The synthesized `Action(name="end", action_type="end")`. -/
def endAction : Action := ⟨"end", "end", none, none⟩

/-- The `Workflow` dataclass (`src/workflow.py` /
`src/woozie/domain/workflow.py`): a name, the ordinary actions, and an
optional error-handler action supplied separately from the action list. -/
structure Workflow where
  name : String
  actions : List Action
  error_handler : Option Action := none

/-- Python exceptions that the embedded pipeline can raise.  The
`workflowGraphError`/`xmlBuildError` constructors model the two classes
declared in `src/exceptions/exception.py`; the rest are Python built-ins.
`nonTermination` marks divergence of the `while` loop in
`parrallelize_subcomponent` (never produced by terminating runs). -/
inductive WGMsg where
  | cyclicDependencies
  | missingDependencies (deps : List String)
  | multipleStartEnd
  | multipleErrorTransitions
deriving DecidableEq, Repr

inductive PyError where
  | keyError (key : String)
  | typeError
  | stopIteration
  | indexError
  | valueError
  | workflowGraphError (msg : WGMsg)
  | xmlBuildError (msg : String)
  | nonTermination
deriving DecidableEq, Repr

/-- Directed graph in the style of `networkx.DiGraph`: insertion-ordered,
duplicate-free node and edge lists. -/
structure DiGraph where
  nodes : List Action
  edges : List (Action × Action)
deriving DecidableEq, Repr

namespace DiGraph

/-- The empty `DiGraph()`. -/
def empty : DiGraph := ⟨[], []⟩

/-- Add a node if not already present (`G.add_node`). -/
def addNode (G : DiGraph) (a : Action) : DiGraph :=
  if a ∈ G.nodes then G else ⟨G.nodes ++ [a], G.edges⟩

/-- Add an edge, adding missing endpoints first (`G.add_edge`); adding an
already-present edge is a no-op.  (`addNode` never changes the edge list,
so testing membership in `G.edges` is the same as testing it after the
nodes are added.) -/
def addEdge (G : DiGraph) (u v : Action) : DiGraph :=
  let G2 := (G.addNode u).addNode v
  if (u, v) ∈ G.edges then G2 else ⟨G2.nodes, G2.edges ++ [(u, v)]⟩

/-- Add a list of edges (`G.add_edges_from`). -/
def addEdgesFrom (G : DiGraph) (es : List (Action × Action)) : DiGraph :=
  es.foldl (fun g e => g.addEdge e.1 e.2) G

/-- Add a list of nodes (`G.add_nodes_from`). -/
def addNodesFrom (G : DiGraph) (as : List Action) : DiGraph :=
  as.foldl addNode G

/-- Successors of a node in adjacency insertion order (`G.neighbors`). -/
def succs (G : DiGraph) (u : Action) : List Action :=
  G.edges.filterMap (fun e => if e.1 = u then some e.2 else none)

/-- Predecessors of a node (`G.predecessors`). -/
def preds (G : DiGraph) (v : Action) : List Action :=
  G.edges.filterMap (fun e => if e.2 = v then some e.1 else none)

/-- Number of edges into a node (`G.in_degree`). -/
def inDegree (G : DiGraph) (v : Action) : Nat :=
  (G.preds v).length

/-- Number of edges out of a node (`G.out_degree`). -/
def outDegree (G : DiGraph) (u : Action) : Nat :=
  (G.succs u).length

/-- Number of nodes (`networkx.number_of_nodes`). -/
def numberOfNodes (G : DiGraph) : Nat := G.nodes.length

/-- Induced subgraph on a node set, then `.copy()`
(`G.subgraph(nodes).copy()`): node order follows `G`. -/
def subgraphOf (G : DiGraph) (s : List Action) : DiGraph :=
  ⟨G.nodes.filter (· ∈ s), G.edges.filter (fun e => e.1 ∈ s ∧ e.2 ∈ s)⟩

/-- Remove the listed nodes and all incident edges
(`G.remove_nodes_from`). -/
def removeNodesFrom (G : DiGraph) (s : List Action) : DiGraph :=
  ⟨G.nodes.filter (· ∉ s), G.edges.filter (fun e => e.1 ∉ s ∧ e.2 ∉ s)⟩

/-- Union of two graphs (`networkx.compose G H`): nodes of `G` first, then
the new nodes of `H`; likewise for edges. -/
def compose (G H : DiGraph) : DiGraph :=
  ⟨G.nodes ++ H.nodes.filter (· ∉ G.nodes),
   G.edges ++ H.edges.filter (· ∉ G.edges)⟩

/-- `networkx.compose_all`: left fold of `compose`; raises on an empty
list. -/
def composeAll (Gs : List DiGraph) : Except PyError DiGraph :=
  match Gs with
  | [] => .error .valueError
  | g :: gs => .ok (gs.foldl compose g)

/-- Nodes with in-degree 0, in node order
(`WorkflowGraphBuilder.entry_nodes`). -/
def entryNodes (G : DiGraph) : List Action :=
  G.nodes.filter (fun n => G.inDegree n = 0)

/-- Nodes with out-degree 0, in node order
(`WorkflowGraphBuilder.exit_nodes`). -/
def exitNodes (G : DiGraph) : List Action :=
  G.nodes.filter (fun n => G.outDegree n = 0)

/-- Kahn peeling: repeatedly strip the current in-degree-0 nodes.  This is
the embedding of `networkx.topological_sort`; it returns `none` exactly when
a (nonempty) cycle blocks the peeling, which is also how
`networkx.is_directed_acyclic_graph` decides acyclicity. -/
def kahnAux (fuel : Nat) (G : DiGraph) : Option (List Action) :=
  match fuel with
  | 0 => if G.nodes = [] then some [] else none
  | fuel + 1 =>
    if G.nodes = [] then some []
    else
      let roots := entryNodes G
      if roots = [] then none
      else (kahnAux fuel (G.removeNodesFrom roots)).map (roots ++ ·)

/-- Topological sort of a graph (`networkx.topological_sort`), `none` on a
cyclic graph. -/
def kahnSort (G : DiGraph) : Option (List Action) :=
  kahnAux G.nodes.length G

/-- The gate `networkx.is_directed_acyclic_graph`. -/
def isDirectedAcyclicGraph (G : DiGraph) : Bool :=
  (kahnSort G).isSome

/-- Undirected neighbours of a node, used for weak connectivity. -/
def undirNbrs (G : DiGraph) (u : Action) : List Action :=
  G.succs u ++ G.preds u

/-- Fuel-driven breadth-first closure over undirected adjacency, collecting
the weakly-connected component of the seed nodes. -/
def closureAux (G : DiGraph) : Nat → List Action → List Action → List Action
  | 0, vis, _ => vis
  | _ + 1, vis, [] => vis
  | fuel + 1, vis, x :: rest =>
    if x ∈ vis then closureAux G fuel vis rest
    else closureAux G fuel (vis ++ [x]) (rest ++ undirNbrs G x)

/-- Ample fuel for `closureAux` on graph `G`. -/
def closureFuel (G : DiGraph) : Nat :=
  (G.nodes.length + 1) * (2 * G.edges.length + G.nodes.length + 1)

/-- Weakly-connected components as node lists, in first-seen node order
(`networkx.weakly_connected_components`).  The `filter (· ∉ seen)` drops
nodes already assigned to an earlier component; for adequate fuel the
closure of an unseen node never meets `seen`, so this is the identity there
and the components are the true weak components. -/
def wccList (G : DiGraph) : List (List Action) :=
  (G.nodes.foldl
    (fun (st : List Action × List (List Action)) a =>
      if a ∈ st.1 then st
      else
        let comp := (closureAux G (closureFuel G) [] [a]).filter (· ∉ st.1)
        (st.1 ++ comp, st.2 ++ [comp]))
    ([], [])).2

/-- `networkx.number_weakly_connected_components`. -/
def numberWcc (G : DiGraph) : Nat := (wccList G).length

/-- `WorkflowGraphBuilder.get_components`: the weak components as directed
subgraphs. -/
def getComponents (G : DiGraph) : List DiGraph :=
  (wccList G).map G.subgraphOf

end DiGraph

open DiGraph

/-- One step chain walk of `WorkflowGraphBuilder.single_edge_path`
(`src/woozie/domain/workflowgraph.py`): the `while stack` loop with the
singleton stack made explicit.  `fuel` bounds the walk; the Python loop
diverges on an in/out-degree-1 cycle, which exhausting fuel models by
stopping (the pipeline only reaches this code on acyclic components). -/
def sepGo (G : DiGraph) : Nat → Action → List Action → List Action
  | 0, current, visited => visited ++ [current]
  | fuel + 1, current, visited =>
    let visited := visited ++ [current]
    match G.succs current with
    | [s] =>
      if G.inDegree s = 1 ∧ G.outDegree s = 1 then sepGo G fuel s visited
      else visited
    | _ => visited

/-- `WorkflowGraphBuilder.single_edge_path`: contiguous nodes with a single
edge in and out, walked from `source`. -/
def single_edge_path (G : DiGraph) (source : Action) : List Action :=
  sepGo G (G.nodes.length + 1) source []

/-- `WorkflowGraphBuilder.add_fork_join`: a fresh `fork-count`/`join-count`
pair wired to the entry and exit nodes of `G`; returns the edges and the
bumped counter. -/
def addForkJoin (G : DiGraph) (count : Nat) :
    List (Action × Action) × Nat :=
  ((entryNodes G).map (fun n => (mkFork count, n)) ++
     (exitNodes G).map (fun n => (n, mkJoin count)), count + 1)

/-- `WorkflowGraphBuilder.add_error_node`: one edge from each exit node to
the error handler; raises unless there is exactly one such edge. -/
def addErrorNode (errorNode : Action) (G : DiGraph) :
    Except PyError (List (Action × Action)) :=
  let edge := (exitNodes G).map (fun n => (n, errorNode))
  if edge.length ≠ 1 then .error (.workflowGraphError .multipleErrorTransitions)
  else .ok edge

/-- `WorkflowGraphBuilder.add_start_end`: edges from `start` to every entry
node and from every exit node to `end`; raises unless both lists are
singletons. -/
def addStartEnd (G : DiGraph) : Except PyError (List (Action × Action)) :=
  let start := (entryNodes G).map (fun n => (startAction, n))
  let «end» := (exitNodes G).map (fun n => (n, endAction))
  if start.length ≠ 1 ∨ «end».length ≠ 1 then
    .error (.workflowGraphError .multipleStartEnd)
  else .ok (start ++ «end»)

/-- The forkless paths extracted in one pass: one `single_edge_path` per
current root (`paths = [self.single_edge_path(G, start) for start in
roots]`). -/
def parrPaths (G : DiGraph) : List (List Action) :=
  (entryNodes G).map (single_edge_path G)

/-- `paths_flatten`: the nodes consumed by this pass. -/
def parrFlat (G : DiGraph) : List Action :=
  (parrPaths G).flatten

/-- The `result` graph of the multi-path branch: the induced subgraph on
the flattened paths with the fresh fork/join pair wired in. -/
def parrResult (G : DiGraph) (c : Nat) : DiGraph :=
  (G.subgraphOf (parrFlat G)).addEdgesFrom
    (addForkJoin (G.subgraphOf (parrFlat G)) c).1

/-- One iteration of the `while number_of_nodes(G) > 0` loop body of
`parrallelize_subcomponent`, on a nonempty remaining graph `G`: extract the
forkless paths, wrap with a fork/join pair or append sequentially, and drop
the processed nodes.  Returns the new remaining graph, the new accumulated
structured graph, and the new fork counter; `[0]`-indexing of an empty
entry/exit list raises `IndexError`. -/
def parrStep (G sub : DiGraph) (c : Nat) :
    Except PyError (DiGraph × DiGraph × Nat) :=
  if 1 < (parrPaths G).length then
    if sub.numberOfNodes ≠ 0 then
      match entryNodes (parrResult G c), exitNodes (sub.compose (parrResult G c)) with
      | entry :: _, exit :: _ =>
        .ok (G.removeNodesFrom (parrFlat G),
          (sub.compose (parrResult G c)).addEdge exit entry,
          (addForkJoin (G.subgraphOf (parrFlat G)) c).2)
      | _, _ => .error .indexError
    else
      .ok (G.removeNodesFrom (parrFlat G), sub.compose (parrResult G c),
        (addForkJoin (G.subgraphOf (parrFlat G)) c).2)
  else if (parrPaths G).length = 1 then
    if sub.numberOfNodes ≠ 0 then
      match exitNodes sub, parrFlat G with
      | n :: _, m :: _ =>
        .ok (G.removeNodesFrom (parrFlat G), sub.addEdge n m, c)
      | _, _ => .error .indexError
    else
      .ok (G.removeNodesFrom (parrFlat G),
        sub.compose (G.subgraphOf (parrFlat G)), c)
  else .ok (G.removeNodesFrom (parrFlat G), sub, c)

def parrallelizeAux : Nat → DiGraph → DiGraph → Nat →
    Except PyError (DiGraph × Nat)
  | 0, G, sub, c =>
    if G.numberOfNodes = 0 then .ok (sub, c) else .error .nonTermination
  | fuel + 1, G, sub, c =>
    if G.numberOfNodes = 0 then .ok (sub, c)
    else do
      let st ← parrStep G sub c
      parrallelizeAux fuel st.1 st.2.1 st.2.2

/-- `WorkflowGraphBuilder.parrallelize_subcomponent`: structure one weak
component, starting from an empty accumulator. -/
def parrallelize_subcomponent (G : DiGraph) (c : Nat) :
    Except PyError (DiGraph × Nat) :=
  parrallelizeAux (G.numberOfNodes + 1) G DiGraph.empty c

/-- `WorkflowGraphBuilder.process_subcomponent` (domain version): always
parallelize the component. -/
def process_subcomponent (G : DiGraph) (c : Nat) :
    Except PyError (DiGraph × Nat) :=
  parrallelize_subcomponent G c

/-- First stage of `process_components`: if the composed graph still has
more than one weak component, wrap everything in a top-level fork/join pair
(`if number_weakly_connected_components(G) > 1`). -/
def pcWrap (G : DiGraph) (c : Nat) : DiGraph × Nat :=
  if 1 < G.numberWcc then
    (G.addEdgesFrom (addForkJoin G c).1, (addForkJoin G c).2)
  else (G, c)

/-- Second stage of `process_components`: attach the error handler node, if
one is configured (`if self.workflow.error_handler`). -/
def pcError (errorHandler : Option Action) (G : DiGraph) :
    Except PyError DiGraph :=
  match errorHandler with
  | some h => do
    let edge ← addErrorNode h G
    pure (G.addEdgesFrom edge)
  | none => pure G

/-- `WorkflowGraphBuilder.process_components`: wrap multiple top-level
components in a fork/join pair, attach the error handler, then attach the
`start` and `end` nodes. -/
def processComponents (errorHandler : Option Action) (G : DiGraph) (c : Nat) :
    Except PyError (DiGraph × Nat) := do
  let G2 ← pcError errorHandler (pcWrap G c).1
  let controlEdges ← addStartEnd G2
  pure (G2.addEdgesFrom controlEdges, (pcWrap G c).2)

/-- `WorkflowGraphBuilder.build_input_graph`: raw dependency graph.  The
edge list comprehension does `action_dict[dependency]` before the
missing-dependency guard runs, so an unknown dependency raises `KeyError`
there, and iterating `dependencies` of an action whose field is `None`
raises `TypeError`. -/
def depEdges (actionDict : List (String × Action)) :
    List Action → Except PyError (List (Action × Action))
  | [] => .ok []
  | a :: rest => do
    match a.dependencies with
    | none => .error .typeError
    | some ds =>
      let here ← ds.mapM (fun d =>
        match (actionDict.reverse.find? (fun p => p.1 = d)).map (·.2) with
        | some depAction => .ok (depAction, a)
        | none => .error (.keyError d))
      let there ← depEdges actionDict rest
      .ok (here ++ there)

def build_input_graph (w : Workflow) : Except PyError DiGraph := do
  let actionDict := w.actions.map (fun a => (a.name, a))
  let actionNames := actionDict.map (·.1)
  let dependencies ← depEdges actionDict w.actions
  let inputGraph := (DiGraph.empty.addEdgesFrom dependencies).addNodesFrom w.actions
  let depActions := (w.actions.flatMap (fun a => a.dependencies.getD [])).dedup
  if ¬ depActions.all (· ∈ actionNames) then
    .error (.workflowGraphError
      (.missingDependencies (depActions.filter (· ∉ actionNames))))
  else
    .ok inputGraph

/-- `WorkflowGraphBuilder.build_workflow_dag`: split into weak components,
structure each, recombine, and finalize. -/
def build_workflow_dag (errorHandler : Option Action) (G : DiGraph) (c : Nat) :
    Except PyError (DiGraph × Nat) := do
  let comps := getComponents G
  let (subs, c) ← comps.foldlM
    (fun (st : List DiGraph × Nat) comp => do
      let (s, c) ← process_subcomponent comp st.2
      pure (st.1 ++ [s], c))
    ([], c)
  let composed ← DiGraph.composeAll subs
  processComponents errorHandler composed c

/-- `WorkflowGraphBuilder.build_workflow_graph` with a fresh per-run
counter: build the raw graph, gate on acyclicity, then derive the structured
workflow DAG (the graphviz side channel is omitted).  Returns the structured
graph together with the final `fork_count`. -/
def build_workflow_graph (w : Workflow) : Except PyError (DiGraph × Nat) := do
  let inputGraph ← build_input_graph w
  if ¬ isDirectedAcyclicGraph inputGraph then
    .error (.workflowGraphError .cyclicDependencies)
  else
    build_workflow_dag w.error_handler inputGraph 0

/-- An XML element: tag, attributes in order, text content, children in
order (the `lxml.etree` tree shape used by `OozieWorkflow`). -/
inductive XTree where
  | node (tag : String) (attrs : List (String × String)) (text : Option String)
      (children : List XTree)
deriving Repr

/-- Tag of an element. -/
def XTree.tag : XTree → String
  | .node t _ _ _ => t

/-- Attribute lookup on an element. -/
def XTree.attr (key : String) : XTree → Option String
  | .node _ attrs _ _ => (attrs.find? (fun p => p.1 = key)).map (·.2)

/-- Children of an element. -/
def XTree.children : XTree → List XTree
  | .node _ _ _ cs => cs

/-- The `to` attribute of the first child with the given tag, if any. -/
def XTree.childToOf (tg : String) (e : XTree) : Option String :=
  (e.children.find? (fun c => c.tag = tg)).map (XTree.attr "to")  |>.join

/-- Leaf helper used by the emitter. -/
def XTree.leaf (tg : String) (attrs : List (String × String))
    (text : Option String) : XTree :=
  .node tg attrs text []

/-- `OozieWorkflow.get_action_element`: project one ordinary action into its
`<action>` element.  `iter(None)` raises `TypeError`; `next` on an empty
config raises `StopIteration`; the first config entry must be an attribute
dictionary (anything else fails in `SubElement`); a `configuration` entry
must carry a `properties` mapping (`KeyError` otherwise, `TypeError` on a
string); assigning a dict to `.text` raises `TypeError`. -/
def get_action_element (action : Action) (nextAction : String)
    (errorAction : Option String) : Except PyError XTree := do
  match action.config with
  | none => .error .typeError
  | some cfg =>
    match cfg with
    | [] => .error .stopIteration
    | (option, firstVal) :: rest =>
      let oozieAttrs ←
        match firstVal with
        | .attrs m => Except.ok m
        | _ => .error .typeError
      let oozieChildren ← rest.mapM (fun (p : String × CVal) =>
        match p.2 with
        | .l vs => Except.ok (vs.map (fun t => XTree.leaf p.1 [] (some t)))
        | v =>
          if p.1 = "configuration" then
            match v with
            | .props ps =>
              Except.ok [XTree.node p.1 [] none
                (ps.map (fun q => XTree.node "property" [] none
                  [XTree.leaf "name" [] (some q.1),
                   XTree.leaf "value" [] (some q.2)]))]
            | .attrs _ => .error (.keyError "properties")
            | _ => .error .typeError
          else
            match v with
            | .s t => Except.ok [XTree.leaf p.1 [] (some t)]
            | _ => .error .typeError)
      let okChild := XTree.leaf "ok" [("to", nextAction)] none
      let errChildren :=
        match errorAction with
        | some e => [XTree.leaf "error" [("to", e)] none]
        | none => []
      .ok (XTree.node "action" [("name", action.name)] none
        ([XTree.node option oozieAttrs none oozieChildren.flatten] ++
          [okChild] ++ errChildren))

/-- One iteration of the emission loop body of
`OozieWorkflow.build_xml_tree` for node `a`: produces the single child
element appended to the root.  `next(transition)` on a node without
successors raises `StopIteration`. -/
def emitNode (G : DiGraph) (errorName : String) (a : Action) :
    Except PyError XTree :=
  let transition := G.succs a
  if a.action_type = "start" then
    match transition with
    | [] => .error .stopIteration
    | t :: _ => .ok (XTree.leaf "start" [("to", t.name)] none)
  else if a.action_type = "end" then
    .ok (XTree.leaf "end" [("name", a.name)] none)
  else if a.action_type = "fork" then
    .ok (XTree.node "fork" [("name", a.name)] none
      (transition.map (fun p => XTree.leaf "path" [("name", p.name)] none)))
  else if a.action_type = "join" then
    match transition with
    | [] => .error .stopIteration
    | t :: _ => .ok (XTree.leaf "join" [("name", a.name), ("to", t.name)] none)
  else
    match transition with
    | [] => .error .stopIteration
    | t :: _ =>
      if a.name = "error_handler" then get_action_element a t.name none
      else get_action_element a t.name (some errorName)

/-- `OozieWorkflow.build_xml_tree`: visit every node in topological order,
take the penultimate node of that order as the error-routing node, and emit
one element per node under the `workflow-app` root. -/
def build_xml_tree (workflowName : String) (G : DiGraph) :
    Except PyError XTree := do
  let topOrder ←
    match kahnSort G with
    | some l => Except.ok l
    | none => .error .valueError
  if h : 2 ≤ topOrder.length then
    let errorNode := topOrder.get ⟨topOrder.length - 2, by omega⟩
    let elems ← topOrder.mapM (emitNode G errorNode.name)
    .ok (XTree.node "workflow-app"
      [("name", workflowName), ("xmlns", "uri:oozie:workflow:1.0")] none elems)
  else .error .indexError

/-- `OozieWorkflow.generate` at the granularity of the claims: build the
structured graph, then the XML document; an `.ok` result is the emitted
document, an `.error` is a run that logged a failure and wrote nothing (the
Python method catches the exceptions, logs them and emits no document). -/
def generate (w : Workflow) : Except PyError XTree := do
  let (workflowGraph, _) ← build_workflow_graph w
  build_xml_tree w.name workflowGraph

/-! ### Concrete scenario inputs -/

/-- Scenario action `A` (no dependencies). -/
def actA : Action := ⟨"A", "shell", some [], some [("shell", .attrs [])]⟩

/-- Scenario action `B` (depends on `A`). -/
def actB : Action := ⟨"B", "shell", some ["A"], some [("shell", .attrs [])]⟩

/-- Scenario action `C` (depends on `A`). -/
def actC : Action := ⟨"C", "shell", some ["A"], some [("shell", .attrs [])]⟩

/-- Scenario error handler `H`; the front end
(`Workflow.build` in `src/workflow.py`) always names the handler action
`error_handler`. -/
def actH : Action := ⟨"error_handler", "email", none, some [("email", .attrs [])]⟩

/-- Scenario 2 workflow: `A`, `B` (deps `{A}`), `C` (deps `{A}`). -/
def scenario2 : Workflow := ⟨"wf2", [actA, actB, actC], none⟩

/-- Scenario 3 workflow: `A`, `B` (deps `{A}`) plus error handler `H`. -/
def scenario3 : Workflow := ⟨"wf3", [actA, actB], some actH⟩

/-- Workflow with a cyclic dependency: `A` depends on `B`, `B` on `A`. -/
def cyclicWorkflow : Workflow :=
  ⟨"wfc", [⟨"A", "shell", some ["B"], none⟩, ⟨"B", "shell", some ["A"], none⟩], none⟩

/-- Workflow whose only action `A` depends on the unknown name `B`. -/
def missingDepWorkflow : Workflow :=
  ⟨"wfm", [⟨"A", "shell", some ["B"], none⟩], none⟩

/-- Workflow exhibiting the chain-drop bug of
`parrallelize_subcomponent`: `A`, `B` are parallel roots, `C` joins them and
`C → D → E` is a chain. -/
def dropWorkflow : Workflow :=
  ⟨"wfd",
   [⟨"A", "shell", some [], none⟩, ⟨"B", "shell", some [], none⟩,
    ⟨"C", "shell", some ["A", "B"], none⟩, ⟨"D", "shell", some ["C"], none⟩,
    ⟨"E", "shell", some ["D"], none⟩], none⟩

/-! ### Claims settled by evaluating the pipeline on concrete inputs -/

/-- The exception carried by a failed `Except` computation, if any. -/
def exceptError {α : Type _} : Except PyError α → Option PyError
  | .error e => some e
  | .ok _ => none

set_option synthInstance.maxSize 4000

/-- Claim C1: for actions `A` (no dependencies), `B` (deps `{A}`) and `C`
(deps `{A}`), the structured graph has `fork-0` as the sole successor of
`A`, with one outgoing edge to `B` and one to `C`, and `join-0` as the sole
successor of both `B` and `C`, preceding `end`.  (Verified against the
canonical builder in `src/woozie/domain/workflowgraph.py`.) -/
theorem claim_C1_scenario2_fork_join :
    (build_workflow_graph scenario2).toOption.map
      (fun p => (p.1.succs actA, p.1.succs (mkFork 0), p.1.succs actB,
        p.1.succs actC, p.1.succs (mkJoin 0), p.2)) =
    some ([mkFork 0], [actB, actC], [mkJoin 0], [mkJoin 0], [endAction], 1) := by
  decide

/-- Claim C3 (code bug): on `dropWorkflow` the pipeline succeeds, yet action
`D` is missing from the structured graph while its chain predecessor `C`
survives: the `len(paths) == 1` branch of `parrallelize_subcomponent` adds
only `paths_flatten[0]` to the accumulated graph but removes the whole chain
from the working graph, dropping `D`. -/
theorem claim_C3_chain_drop_bug :
    (build_workflow_graph dropWorkflow).toOption.map
      (fun p => (decide ((⟨"D", "shell", some ["C"], none⟩ : Action) ∈ p.1.nodes),
        decide ((⟨"C", "shell", some ["A", "B"], none⟩ : Action) ∈ p.1.nodes),
        decide ((⟨"E", "shell", some ["D"], none⟩ : Action) ∈ p.1.nodes))) =
    some (false, true, true) := by
  decide

/-- Claim C4 (code bug): an unresolved dependency makes
`build_input_graph` raise a bare `KeyError` at the
`action_dict[dependency]` lookup inside the edge comprehension, before its
own missing-dependency guard (`Missing action for dependencies: ...`) can
run; the claimed `MissingDependencyError` naming the unresolved set is
unreachable. -/
theorem claim_C4_missing_dependency_keyerror :
    exceptError (build_input_graph missingDepWorkflow) = some (.keyError "B") := by
  decide

/-- Claim C5: a cyclic dependency (`A` depends on `B`, `B` on `A`) makes the
run fail at the acyclicity gate with the cyclic-dependency
`WorkflowGraphError`, and `generate` emits no document. -/
theorem claim_C5_cyclic_error_no_document :
    exceptError (generate cyclicWorkflow) =
      some (.workflowGraphError .cyclicDependencies) := by
  decide

/-- Claim C8: with actions `A`, `B` (deps `{A}`) and error handler `H`
(named `error_handler` by the front end), the structured graph is the chain
`start → A → B → H → end`, and in the emitted document `A` and `B` each
carry a failure transition to `H` while `H` carries none. -/
theorem claim_C8_error_handler_scenario :
    (build_workflow_graph scenario3).toOption.map
      (fun p => (p.1.succs startAction, p.1.succs actA, p.1.succs actB,
        p.1.succs actH, p.1.succs endAction)) =
      some ([actA], [actB], [actH], [endAction], []) ∧
    (generate scenario3).toOption.map
      (fun doc => doc.children.map
        (fun e => (e.tag, e.attr "name", e.childToOf "ok", e.childToOf "error"))) =
      some [("start", none, none, none),
        ("action", some "A", some "B", some "error_handler"),
        ("action", some "B", some "error_handler", some "error_handler"),
        ("action", some "error_handler", some "end", none),
        ("end", some "end", none, none)] := by
  constructor
  · decide
  · decide

/-! ### Claim C9: Action equality and hashing -/

/-- Claim C9 counterexample: two `Action` values with the same name but
different `action_type` are *not* equal under the generated dataclass
`__eq__`, and their hash keys differ as well — equality and hashing are not
determined solely by `name`. -/
theorem claim_C9_counterexample :
    Action.pyEq ⟨"A", "shell", none, none⟩ ⟨"A", "email", none, none⟩ = false ∧
    Action.pyHashKey ⟨"A", "shell", none, none⟩ ≠
      Action.pyHashKey ⟨"A", "email", none, none⟩ ∧
    (Action.mk "A" "shell" none none).name = (Action.mk "A" "email" none none).name := by
  decide

/-- Claim C9 (amended): dataclass equality of `Action` compares the full
tuple of fields — `pyEq a b` holds exactly when all four fields agree — and
equal actions have equal hash keys (the `(name, action_type)` tuple), so in
particular two actions with different names are never equal. -/
theorem claim_C9_eq_full_tuple (a b : Action) :
    (Action.pyEq a b = true ↔ a = b) ∧
    (Action.pyEq a b = true → Action.pyHashKey a = Action.pyHashKey b) := by
  constructor
  · cases a; cases b
    simp [Action.pyEq, Action.mk.injEq, and_assoc]
  · intro h
    cases a; cases b
    simp only [Action.pyEq, Bool.and_eq_true, beq_iff_eq] at h
    simp [Action.pyHashKey, h.1.1.1, h.1.1.2]

/-- Witness for `claim_C9_eq_full_tuple` at a concrete pair. -/
theorem claim_C9_witness :
    Action.pyEq startAction startAction = true :=
  (claim_C9_eq_full_tuple startAction startAction).1.mpr rfl

/-! ### Claim C10: emission-time failures -/

/-- Workflow whose action `A` has no config payload; emission must fail. -/
def noConfigWorkflow : Workflow :=
  ⟨"wfn", [⟨"A", "shell", some [], none⟩, actB], none⟩

/-- Claim C10 counterexample: on a run whose action `A` carries no config
payload the emitter fails with the built-in `TypeError` (from `iter(None)`),
not with any named error: no `MalformedConfigError` exists in the code, and
the declared `XMLBuildError` is never raised. -/
theorem claim_C10_counterexample :
    exceptError (generate noConfigWorkflow) = some .typeError := by
  decide

/-- Claim C10 (amended): during emission, an ordinary action (one whose
type is none of the four control types) with no successor fails with the
built-in `StopIteration`, and one with a successor but no config payload
fails with the built-in `TypeError`; in either case the failure is one of
these two unnamed built-ins, never a named internal-consistency error. -/
theorem claim_C10_builtin_exception (G : DiGraph) (errName : String) (a : Action)
    (hs : a.action_type ≠ "start") (he : a.action_type ≠ "end")
    (hf : a.action_type ≠ "fork") (hj : a.action_type ≠ "join")
    (h : a.config = none ∨ G.succs a = []) :
    emitNode G errName a = .error .typeError ∨
      emitNode G errName a = .error .stopIteration := by
  unfold emitNode
  simp only [if_neg hs, if_neg he, if_neg hf, if_neg hj]
  cases hsucc : G.succs a with
  | nil => exact Or.inr rfl
  | cons t ts =>
    have hc : a.config = none := by
      rcases h with h | h
      · exact h
      · rw [hsucc] at h; cases h
    unfold get_action_element
    rw [hc]
    by_cases hn : a.name = "error_handler" <;> simp [hn]

/-- Witness for `claim_C10_builtin_exception`: an ordinary action without a
config payload on the empty graph. -/
theorem claim_C10_witness :
    emitNode DiGraph.empty "e" ⟨"X", "shell", none, none⟩ = .error .typeError ∨
      emitNode DiGraph.empty "e" ⟨"X", "shell", none, none⟩ = .error .stopIteration :=
  claim_C10_builtin_exception DiGraph.empty "e" ⟨"X", "shell", none, none⟩
    (by decide) (by decide) (by decide) (by decide) (Or.inl rfl)

/-! ### Claim C6: soundness of the single-edge-path walk -/

/-- The link relation maintained by `single_edge_path`: `v` is the unique
successor of `u`, and `v` has exactly one incoming and one outgoing edge
(which makes `u` its unique predecessor). -/
def chainLink (G : DiGraph) (u v : Action) : Prop :=
  G.succs u = [v] ∧ G.inDegree v = 1 ∧ G.outDegree v = 1

theorem sepGo_chain (G : DiGraph) (fuel : Nat) :
    ∀ cur vis, List.Chain' (chainLink G) (vis ++ [cur]) →
      List.Chain' (chainLink G) (sepGo G fuel cur vis) := by
  induction fuel with
  | zero => intro cur vis h; exact h
  | succ fuel ih =>
    intro cur vis h
    unfold sepGo
    cases hsucc : G.succs cur with
    | nil => exact h
    | cons s ss =>
      cases ss with
      | nil =>
        show List.Chain' (chainLink G)
          (if G.inDegree s = 1 ∧ G.outDegree s = 1 then
            sepGo G fuel s (vis ++ [cur]) else vis ++ [cur])
        by_cases hdeg : G.inDegree s = 1 ∧ G.outDegree s = 1
        · rw [if_pos hdeg]
          apply ih
          rw [List.chain'_append]
          refine ⟨h, List.chain'_singleton s, ?_⟩
          intro x hx y hy
          rw [List.getLast?_concat] at hx
          cases hx
          cases hy
          exact ⟨hsucc, hdeg.1, hdeg.2⟩
        · rw [if_neg hdeg]; exact h
      | cons _ _ => exact h

theorem sepGo_head (G : DiGraph) (fuel : Nat) :
    ∀ cur vis, (sepGo G fuel cur vis).head? = (vis ++ [cur]).head? := by
  induction fuel with
  | zero => intro cur vis; rfl
  | succ fuel ih =>
    intro cur vis
    unfold sepGo
    cases hsucc : G.succs cur with
    | nil => rfl
    | cons s ss =>
      cases ss with
      | nil =>
        show (if G.inDegree s = 1 ∧ G.outDegree s = 1 then
            sepGo G fuel s (vis ++ [cur]) else vis ++ [cur]).head? =
          (vis ++ [cur]).head?
        by_cases hdeg : G.inDegree s = 1 ∧ G.outDegree s = 1
        · rw [if_pos hdeg, ih]
          rw [List.head?_append, List.head?_append]
          cases vis <;> rfl
        · rw [if_neg hdeg]
      | cons _ _ => rfl

/-- Claim C6: the chain `single_edge_path` extracts from an in-degree-0 root
starts at the root, links each node to the next only when the next is the
unique successor of the current and the current is its unique predecessor
(in-degree 1 with the linking edge, out-degree 1), and consequently contains
no node of in-degree greater than 1 and no internal node of out-degree
other than 1. -/
theorem claim_C6_single_edge_path_sound (G : DiGraph) (source : Action)
    (hroot : G.inDegree source = 0) :
    (single_edge_path G source).head? = some source ∧
    List.Chain' (chainLink G) (single_edge_path G source) ∧
    (∀ v ∈ single_edge_path G source, G.inDegree v ≤ 1) ∧
    (∀ i, (h : i + 1 < (single_edge_path G source).length) →
      G.outDegree ((single_edge_path G source).get ⟨i, by omega⟩) = 1) := by
  have hhead : (single_edge_path G source).head? = some source := by
    rw [single_edge_path, sepGo_head]; rfl
  have hchain : List.Chain' (chainLink G) (single_edge_path G source) := by
    apply sepGo_chain
    simp
  have hget := List.chain'_iff_get.mp hchain
  refine ⟨hhead, hchain, ?_, ?_⟩
  · intro v hv
    obtain ⟨⟨i, hi⟩, rfl⟩ := List.mem_iff_get.mp hv
    cases i with
    | zero =>
      have h0 : (single_edge_path G source).get ⟨0, hi⟩ = source := by
        have h1 := hhead
        rw [List.head?_eq_getElem?, List.getElem?_eq_getElem hi] at h1
        rw [List.get_eq_getElem]
        exact Option.some.inj h1
      rw [h0, hroot]
      exact Nat.zero_le 1
    | succ j =>
      have hlink := hget j (by omega)
      exact le_of_eq hlink.2.1
  · intro i h
    have hlink := hget i (by omega)
    have : G.succs ((single_edge_path G source).get ⟨i, by omega⟩) =
        [(single_edge_path G source).get ⟨i + 1, by omega⟩] := hlink.1
    rw [DiGraph.outDegree, this]
    rfl

/-- Witness for `claim_C6_single_edge_path_sound` on the two-node chain
`A → B`. -/
theorem claim_C6_witness :
    (single_edge_path ⟨[actA, actB], [(actA, actB)]⟩ actA).head? = some actA ∧
    List.Chain' (chainLink ⟨[actA, actB], [(actA, actB)]⟩)
      (single_edge_path ⟨[actA, actB], [(actA, actB)]⟩ actA) ∧
    (∀ v ∈ single_edge_path ⟨[actA, actB], [(actA, actB)]⟩ actA,
      DiGraph.inDegree ⟨[actA, actB], [(actA, actB)]⟩ v ≤ 1) ∧
    (∀ i, (h : i + 1 <
        (single_edge_path ⟨[actA, actB], [(actA, actB)]⟩ actA).length) →
      DiGraph.outDegree ⟨[actA, actB], [(actA, actB)]⟩
        ((single_edge_path ⟨[actA, actB], [(actA, actB)]⟩ actA).get
          ⟨i, by omega⟩) = 1) :=
  claim_C6_single_edge_path_sound ⟨[actA, actB], [(actA, actB)]⟩ actA (by decide)

/-! ### Graph well-formedness -/

namespace DiGraph

/-- Well-formedness maintained by every graph operation: nodes are
duplicate-free and edge endpoints are nodes. -/
structure Wf (G : DiGraph) : Prop where
  nodesNodup : G.nodes.Nodup
  edgesWf : ∀ e ∈ G.edges, e.1 ∈ G.nodes ∧ e.2 ∈ G.nodes

theorem wf_empty : Wf empty :=
  ⟨List.nodup_nil, by intro e he; cases he⟩

theorem addNode_nodes_sub (G : DiGraph) (a : Action) :
    ∀ x ∈ (G.addNode a).nodes, x ∈ G.nodes ∨ x = a := by
  intro x hx
  unfold addNode at hx
  by_cases h : a ∈ G.nodes
  · rw [if_pos h] at hx; exact Or.inl hx
  · rw [if_neg h] at hx
    rcases List.mem_append.mp hx with h1 | h1
    · exact Or.inl h1
    · exact Or.inr (List.mem_singleton.mp h1)

theorem mem_addNode_self (G : DiGraph) (a : Action) : a ∈ (G.addNode a).nodes := by
  unfold addNode
  by_cases h : a ∈ G.nodes
  · rw [if_pos h]; exact h
  · rw [if_neg h]; exact List.mem_append.mpr (Or.inr (List.mem_singleton.mpr rfl))

theorem mem_addNode_of_mem (G : DiGraph) (a x : Action) (hx : x ∈ G.nodes) :
    x ∈ (G.addNode a).nodes := by
  unfold addNode
  by_cases h : a ∈ G.nodes
  · rw [if_pos h]; exact hx
  · rw [if_neg h]; exact List.mem_append.mpr (Or.inl hx)

theorem addNode_edges (G : DiGraph) (a : Action) : (G.addNode a).edges = G.edges := by
  unfold addNode
  by_cases h : a ∈ G.nodes
  · rw [if_pos h]
  · rw [if_neg h]

theorem wf_addNode (G : DiGraph) (a : Action) (h : Wf G) : Wf (G.addNode a) := by
  constructor
  · unfold addNode
    by_cases hm : a ∈ G.nodes
    · rw [if_pos hm]; exact h.nodesNodup
    · rw [if_neg hm]
      exact List.Nodup.append h.nodesNodup (List.nodup_singleton a)
        (by intro x hx hx'; exact hm (List.mem_singleton.mp hx' ▸ hx))
  · intro e he
    rw [addNode_edges] at he
    exact ⟨mem_addNode_of_mem _ _ _ (h.edgesWf e he).1,
      mem_addNode_of_mem _ _ _ (h.edgesWf e he).2⟩

theorem addEdge_nodes_sub (G : DiGraph) (u v : Action) :
    ∀ x ∈ (G.addEdge u v).nodes, x ∈ G.nodes ∨ x = u ∨ x = v := by
  intro x hx
  unfold addEdge at hx
  by_cases h : (u, v) ∈ G.edges
  · rw [if_pos h] at hx
    rcases addNode_nodes_sub _ _ _ hx with h1 | h1
    · rcases addNode_nodes_sub _ _ _ h1 with h2 | h2
      · exact Or.inl h2
      · exact Or.inr (Or.inl h2)
    · exact Or.inr (Or.inr h1)
  · rw [if_neg h] at hx
    rcases addNode_nodes_sub _ _ _ hx with h1 | h1
    · rcases addNode_nodes_sub _ _ _ h1 with h2 | h2
      · exact Or.inl h2
      · exact Or.inr (Or.inl h2)
    · exact Or.inr (Or.inr h1)

theorem wf_addEdge (G : DiGraph) (u v : Action) (h : Wf G) : Wf (G.addEdge u v) := by
  unfold addEdge
  have hwf2 : Wf ((G.addNode u).addNode v) := wf_addNode _ _ (wf_addNode _ _ h)
  have hu : u ∈ ((G.addNode u).addNode v).nodes :=
    mem_addNode_of_mem _ _ _ (mem_addNode_self _ _)
  have hv : v ∈ ((G.addNode u).addNode v).nodes := mem_addNode_self _ _
  by_cases hm : (u, v) ∈ G.edges
  · rw [if_pos hm]; exact hwf2
  · rw [if_neg hm]
    constructor
    · exact hwf2.nodesNodup
    · intro e he
      rcases List.mem_append.mp he with h1 | h1
      · exact hwf2.edgesWf e h1
      · cases List.mem_singleton.mp h1
        exact ⟨hu, hv⟩

theorem wf_addEdgesFrom (G : DiGraph) (es : List (Action × Action)) (h : Wf G) :
    Wf (G.addEdgesFrom es) := by
  induction es generalizing G with
  | nil => exact h
  | cons e rest ih => exact ih _ (wf_addEdge _ _ _ h)

theorem wf_addNodesFrom (G : DiGraph) (as : List Action) (h : Wf G) :
    Wf (G.addNodesFrom as) := by
  induction as generalizing G with
  | nil => exact h
  | cons a rest ih => exact ih _ (wf_addNode _ _ h)

theorem wf_subgraphOf (G : DiGraph) (s : List Action) (h : Wf G) :
    Wf (G.subgraphOf s) := by
  constructor
  · exact h.nodesNodup.filter _
  · intro e he
    have he' := List.mem_filter.mp he
    have hw := h.edgesWf e he'.1
    have hp := he'.2
    simp only [decide_eq_true_eq] at hp
    exact ⟨List.mem_filter.mpr ⟨hw.1, by simpa using hp.1⟩,
      List.mem_filter.mpr ⟨hw.2, by simpa using hp.2⟩⟩

theorem wf_removeNodesFrom (G : DiGraph) (s : List Action) (h : Wf G) :
    Wf (G.removeNodesFrom s) := by
  constructor
  · exact h.nodesNodup.filter _
  · intro e he
    have he' := List.mem_filter.mp he
    have hw := h.edgesWf e he'.1
    have hp := he'.2
    simp only [decide_eq_true_eq] at hp
    exact ⟨List.mem_filter.mpr ⟨hw.1, by simpa using hp.1⟩,
      List.mem_filter.mpr ⟨hw.2, by simpa using hp.2⟩⟩

theorem compose_nodes_of_disjoint (G H : DiGraph)
    (hd : ∀ a ∈ H.nodes, a ∉ G.nodes) :
    (G.compose H).nodes = G.nodes ++ H.nodes := by
  show G.nodes ++ H.nodes.filter (· ∉ G.nodes) = G.nodes ++ H.nodes
  rw [List.filter_eq_self.mpr (fun a ha => by simpa using hd a ha)]

theorem compose_edges_of_disjoint (G H : DiGraph) (hG : Wf G) (hH : Wf H)
    (hd : ∀ a ∈ H.nodes, a ∉ G.nodes) :
    (G.compose H).edges = G.edges ++ H.edges := by
  show G.edges ++ H.edges.filter (· ∉ G.edges) = G.edges ++ H.edges
  refine congrArg (G.edges ++ ·) (List.filter_eq_self.mpr (fun e he => ?_))
  simp only [decide_eq_true_eq]
  intro hmem
  exact hd e.1 (hH.edgesWf e he).1 (hG.edgesWf e hmem).1

theorem wf_compose (G H : DiGraph) (hG : Wf G) (hH : Wf H)
    (hd : ∀ a ∈ H.nodes, a ∉ G.nodes) : Wf (G.compose H) := by
  constructor
  · rw [compose_nodes_of_disjoint G H hd]
    exact List.Nodup.append hG.nodesNodup hH.nodesNodup
      (fun a haG haH => hd a haH haG)
  · intro e he
    rw [compose_nodes_of_disjoint G H hd]
    rw [compose_edges_of_disjoint G H hG hH hd] at he
    rcases List.mem_append.mp he with h1 | h1
    · exact ⟨List.mem_append.mpr (Or.inl (hG.edgesWf e h1).1),
        List.mem_append.mpr (Or.inl (hG.edgesWf e h1).2)⟩
    · exact ⟨List.mem_append.mpr (Or.inr (hH.edgesWf e h1).1),
        List.mem_append.mpr (Or.inr (hH.edgesWf e h1).2)⟩

theorem mem_succs (G : DiGraph) (u v : Action) :
    v ∈ G.succs u ↔ (u, v) ∈ G.edges := by
  unfold succs
  rw [List.mem_filterMap]
  constructor
  · rintro ⟨⟨e1, e2⟩, he, hv⟩
    split at hv
    · next h =>
        cases hv
        exact h ▸ he
    · next => cases hv
  · intro h
    exact ⟨(u, v), h, by simp⟩

theorem mem_preds (G : DiGraph) (u v : Action) :
    u ∈ G.preds v ↔ (u, v) ∈ G.edges := by
  unfold preds
  rw [List.mem_filterMap]
  constructor
  · rintro ⟨⟨e1, e2⟩, he, hv⟩
    split at hv
    · next h =>
        cases hv
        exact h ▸ he
    · next => cases hv
  · intro h
    exact ⟨(u, v), h, by simp⟩

theorem outDegree_eq_zero_iff (G : DiGraph) (u : Action) :
    G.outDegree u = 0 ↔ ∀ v, (u, v) ∉ G.edges := by
  unfold outDegree
  rw [List.length_eq_zero]
  constructor
  · intro h v hv
    have := (mem_succs G u v).mpr hv
    rw [h] at this
    cases this
  · intro h
    by_contra hne
    obtain ⟨v, hv⟩ := List.exists_mem_of_ne_nil _ hne
    exact h v ((mem_succs G u v).mp hv)

theorem inDegree_eq_zero_iff (G : DiGraph) (v : Action) :
    G.inDegree v = 0 ↔ ∀ u, (u, v) ∉ G.edges := by
  unfold inDegree
  rw [List.length_eq_zero]
  constructor
  · intro h u hu
    have := (mem_preds G u v).mpr hu
    rw [h] at this
    cases this
  · intro h
    by_contra hne
    obtain ⟨u, hu⟩ := List.exists_mem_of_ne_nil _ hne
    exact h u ((mem_preds G u v).mp hu)

theorem mem_entryNodes (G : DiGraph) (a : Action) :
    a ∈ entryNodes G ↔ a ∈ G.nodes ∧ ∀ u, (u, a) ∉ G.edges := by
  unfold entryNodes
  rw [List.mem_filter]
  simp only [decide_eq_true_eq]
  rw [inDegree_eq_zero_iff]

theorem mem_exitNodes (G : DiGraph) (a : Action) :
    a ∈ exitNodes G ↔ a ∈ G.nodes ∧ ∀ v, (a, v) ∉ G.edges := by
  unfold exitNodes
  rw [List.mem_filter]
  simp only [decide_eq_true_eq]
  rw [outDegree_eq_zero_iff]

end DiGraph

open DiGraph

/-! ### Topological orders -/

/-- A witness list for acyclicity of a graph: the nodes of `G`, each
exactly once, arranged so that no edge of `G` points backwards. -/
structure IsTopo (G : DiGraph) (L : List Action) : Prop where
  nodup : L.Nodup
  mem : ∀ a, a ∈ L ↔ a ∈ G.nodes
  noSelf : ∀ a, (a, a) ∉ G.edges
  pw : L.Pairwise (fun u v => (v, u) ∉ G.edges)

/-- Acyclicity of the edge relation: no node reaches itself along a
nonempty directed path. -/
def DiGraph.Acyclic (G : DiGraph) : Prop :=
  ∀ a, ¬ Relation.TransGen (fun u v => (u, v) ∈ G.edges) a a

theorem isTopo_empty : IsTopo DiGraph.empty [] := by
  refine ⟨List.nodup_nil, by simp [DiGraph.empty], ?_, List.Pairwise.nil⟩
  intro a ha
  cases ha

theorem IsTopo.edge_before {G : DiGraph} {L : List Action} (h : IsTopo G L)
    (hw : Wf G) {u v : Action} (he : (u, v) ∈ G.edges) :
    u ∈ L ∧ v ∈ L ∧ L.indexOf u < L.indexOf v := by
  have hu : u ∈ L := (h.mem u).mpr (hw.edgesWf _ he).1
  have hv : v ∈ L := (h.mem v).mpr (hw.edgesWf _ he).2
  refine ⟨hu, hv, ?_⟩
  have hiu := List.indexOf_lt_length.mpr hu
  have hiv := List.indexOf_lt_length.mpr hv
  rcases Nat.lt_trichotomy (L.indexOf u) (L.indexOf v) with hlt | heq | hgt
  · exact hlt
  · exfalso
    have huv : u = v := by
      rw [← List.indexOf_get hiu, ← List.indexOf_get hiv]
      congr 1
      exact Fin.ext heq
    exact h.noSelf u (huv ▸ he)
  · exfalso
    have hp := List.pairwise_iff_get.mp h.pw ⟨L.indexOf v, hiv⟩ ⟨L.indexOf u, hiu⟩ hgt
    rw [List.indexOf_get hiv, List.indexOf_get hiu] at hp
    exact hp he

theorem IsTopo.acyclic {G : DiGraph} {L : List Action} (h : IsTopo G L)
    (hw : Wf G) : G.Acyclic := by
  intro a hcyc
  have key : ∀ x y, Relation.TransGen (fun u v => (u, v) ∈ G.edges) x y →
      L.indexOf x < L.indexOf y := by
    intro x y htg
    induction htg with
    | single he => exact (h.edge_before hw he).2.2
    | tail _ he ih => exact Nat.lt_trans ih (h.edge_before hw he).2.2
  exact Nat.lt_irrefl _ (key a a hcyc)

theorem IsTopo.entryNodes_ne_nil {G : DiGraph} {L : List Action} (h : IsTopo G L)
    (hw : Wf G) (hne : G.nodes ≠ []) : entryNodes G ≠ [] := by
  have hLne : L ≠ [] := by
    intro hL
    obtain ⟨a, ha⟩ := List.exists_mem_of_ne_nil _ hne
    have := (h.mem a).mpr ha
    rw [hL] at this
    cases this
  obtain ⟨b, T, hbt⟩ := List.exists_cons_of_ne_nil hLne
  have hpw := h.pw
  rw [hbt] at hpw
  have hhead := (List.pairwise_cons.mp hpw).1
  have hbmem : b ∈ G.nodes := (h.mem b).mp (hbt ▸ List.mem_cons_self b T)
  have hb : b ∈ entryNodes G := by
    rw [mem_entryNodes]
    refine ⟨hbmem, ?_⟩
    intro u hu
    have humem : u ∈ L := (h.mem u).mpr (hw.edgesWf _ hu).1
    rw [hbt] at humem
    rcases List.mem_cons.mp humem with rfl | hT
    · exact h.noSelf u hu
    · exact hhead u hT hu
  exact List.ne_nil_of_mem hb

theorem IsTopo.exitNodes_ne_nil {G : DiGraph} {L : List Action} (h : IsTopo G L)
    (hw : Wf G) (hne : G.nodes ≠ []) : exitNodes G ≠ [] := by
  have hLne : L ≠ [] := by
    intro hL
    obtain ⟨a, ha⟩ := List.exists_mem_of_ne_nil _ hne
    have := (h.mem a).mpr ha
    rw [hL] at this
    cases this
  rcases List.eq_nil_or_concat L with rfl | ⟨T, b, hbt⟩
  · exact absurd rfl hLne
  rw [List.concat_eq_append] at hbt
  have hpw := h.pw
  rw [hbt] at hpw
  have hcross := (List.pairwise_append.mp hpw).2.2
  have hbmem : b ∈ G.nodes := (h.mem b).mp (hbt ▸ (by simp))
  have hb : b ∈ exitNodes G := by
    rw [mem_exitNodes]
    refine ⟨hbmem, ?_⟩
    intro v hv
    have hvmem : v ∈ L := (h.mem v).mpr (hw.edgesWf _ hv).2
    rw [hbt] at hvmem
    rcases List.mem_append.mp hvmem with hT | hb1
    · exact hcross v hT b (by simp) hv
    · cases List.mem_singleton.mp hb1
      exact h.noSelf b hv
  exact List.ne_nil_of_mem hb

/-- Topological orders restrict along node filters: covers `subgraphOf` and
`removeNodesFrom`. -/
theorem isTopo_of_filter {G G' : DiGraph} {L : List Action} (h : IsTopo G L)
    (p : Action → Prop) (hdp : DecidablePred p)
    (hn : ∀ a, a ∈ G'.nodes ↔ a ∈ G.nodes ∧ p a)
    (he : ∀ e, e ∈ G'.edges → e ∈ G.edges) :
    IsTopo G' (L.filter (fun a => decide (p a))) := by
  refine ⟨h.nodup.filter _, ?_, ?_, ?_⟩
  · intro a
    rw [List.mem_filter, hn, h.mem]
    simp
  · intro a ha
    exact h.noSelf a (he _ ha)
  · exact (h.pw.filter _).imp (fun hx hmem => hx (he _ hmem))

theorem isTopo_compose {G H : DiGraph} {L1 L2 : List Action}
    (h1 : IsTopo G L1) (h2 : IsTopo H L2) (hwG : Wf G) (hwH : Wf H)
    (hd : ∀ a ∈ H.nodes, a ∉ G.nodes) :
    IsTopo (G.compose H) (L1 ++ L2) := by
  have hnodes := compose_nodes_of_disjoint G H hd
  have hedges := compose_edges_of_disjoint G H hwG hwH hd
  have hdisjL : ∀ a ∈ L1, a ∉ L2 := by
    intro a ha1 ha2
    exact hd a ((h2.mem a).mp ha2) ((h1.mem a).mp ha1)
  refine ⟨?_, ?_, ?_, ?_⟩
  · exact List.Nodup.append h1.nodup h2.nodup hdisjL
  · intro a
    rw [List.mem_append, hnodes, List.mem_append, h1.mem, h2.mem]
  · intro a ha
    rw [hedges] at ha
    rcases List.mem_append.mp ha with ha | ha
    · exact h1.noSelf a ha
    · exact h2.noSelf a ha
  · rw [List.pairwise_append]
    refine ⟨?_, ?_, ?_⟩
    · refine h1.pw.imp_of_mem ?_
      intro u v hu hv huv
      rw [hedges]
      intro hm
      rcases List.mem_append.mp hm with hm | hm
      · exact huv hm
      · exact hd _ (hwH.edgesWf _ hm).1 ((h1.mem _).mp hv)
    · refine h2.pw.imp_of_mem ?_
      intro u v hu hv huv
      rw [hedges]
      intro hm
      rcases List.mem_append.mp hm with hm | hm
      · exact hd _ ((h2.mem _).mp hu) (hwG.edgesWf _ hm).2
      · exact huv hm
    · intro u hu v hv
      rw [hedges]
      intro hm
      rcases List.mem_append.mp hm with hm | hm
      · exact hd _ ((h2.mem _).mp hv) (hwG.edgesWf _ hm).1
      · exact hd _ (hwH.edgesWf _ hm).2 ((h1.mem _).mp hu)

/-! ### Explicit forms of the edge-adding operations -/

namespace DiGraph

theorem addNode_of_mem {G : DiGraph} {a : Action} (h : a ∈ G.nodes) :
    G.addNode a = G := if_pos h

theorem addNode_of_not_mem {G : DiGraph} {a : Action} (h : a ∉ G.nodes) :
    G.addNode a = ⟨G.nodes ++ [a], G.edges⟩ := if_neg h

theorem addEdge_eq (G : DiGraph) (u v : Action) :
    G.addEdge u v =
      (if (u, v) ∈ G.edges then (G.addNode u).addNode v
       else ⟨((G.addNode u).addNode v).nodes,
             ((G.addNode u).addNode v).edges ++ [(u, v)]⟩) := rfl

theorem addEdge_mem_mem {G : DiGraph} {u v : Action} (hu : u ∈ G.nodes)
    (hv : v ∈ G.nodes) (hne : (u, v) ∉ G.edges) :
    G.addEdge u v = ⟨G.nodes, G.edges ++ [(u, v)]⟩ := by
  rw [addEdge_eq, if_neg hne, addNode_of_mem hu, addNode_of_mem hv]

theorem addEdge_mem_new {G : DiGraph} {u v : Action} (hw : Wf G)
    (hu : u ∈ G.nodes) (hv : v ∉ G.nodes) :
    G.addEdge u v = ⟨G.nodes ++ [v], G.edges ++ [(u, v)]⟩ := by
  have hne : (u, v) ∉ G.edges := fun hm => hv (hw.edgesWf _ hm).2
  rw [addEdge_eq, if_neg hne, addNode_of_mem hu,
    addNode_of_not_mem (a := v) hv]

theorem addEdge_new_mem {G : DiGraph} {u v : Action} (hw : Wf G)
    (hu : u ∉ G.nodes) (hv : v ∈ G.nodes) :
    G.addEdge u v = ⟨G.nodes ++ [u], G.edges ++ [(u, v)]⟩ := by
  have hne : (u, v) ∉ G.edges := fun hm => hu (hw.edgesWf _ hm).1
  rw [addEdge_eq, if_neg hne, addNode_of_not_mem (a := u) hu]
  rw [addNode_of_mem (show v ∈ (⟨G.nodes ++ [u], G.edges⟩ : DiGraph).nodes from
    List.mem_append.mpr (Or.inl hv))]

/-- `add_edges_from` when every endpoint is already a node and every listed
edge is fresh and listed once: the node list is unchanged and the edges are
appended in order. -/
theorem addEdgesFrom_all_mem :
    ∀ (es : List (Action × Action)) (G : DiGraph),
      (∀ e ∈ es, e.1 ∈ G.nodes ∧ e.2 ∈ G.nodes) →
      (∀ e ∈ es, e ∉ G.edges) → es.Nodup →
      G.addEdgesFrom es = ⟨G.nodes, G.edges ++ es⟩ := by
  intro es
  induction es with
  | nil =>
    intro G _ _ _
    show G = _
    cases G
    simp
  | cons e rest ih =>
    intro G hmem hfresh hnodup
    show (G.addEdge e.1 e.2).addEdgesFrom rest = _
    have he := hmem e (List.mem_cons_self e rest)
    have hstep : G.addEdge e.1 e.2 = ⟨G.nodes, G.edges ++ [e]⟩ := by
      have := addEdge_mem_mem he.1 he.2 (hfresh e (List.mem_cons_self e rest))
      rw [this]
    rw [hstep]
    rw [ih ⟨G.nodes, G.edges ++ [e]⟩
      (fun x hx => hmem x (List.mem_cons_of_mem e hx))
      (fun x hx hm => by
        rcases List.mem_append.mp hm with hm | hm
        · exact hfresh x (List.mem_cons_of_mem e hx) hm
        · cases List.mem_singleton.mp hm
          exact (List.nodup_cons.mp hnodup).1 hx)
      (List.nodup_cons.mp hnodup).2]
    simp

theorem addEdgesFrom_append (G : DiGraph) (es1 es2 : List (Action × Action)) :
    G.addEdgesFrom (es1 ++ es2) = (G.addEdgesFrom es1).addEdgesFrom es2 :=
  List.foldl_append _ _ _ _

/-- Fanning a fresh source `f` out to a nonempty duplicate-free list of
existing nodes appends `f` and the fan edges. -/
theorem addEdgesFrom_fan_out {G : DiGraph} (hw : Wf G) {f : Action}
    {E : List Action} (hf : f ∉ G.nodes) (hE : ∀ n ∈ E, n ∈ G.nodes)
    (hnodup : E.Nodup) (hne : E ≠ []) :
    G.addEdgesFrom (E.map (fun n => (f, n))) =
      ⟨G.nodes ++ [f], G.edges ++ E.map (fun n => (f, n))⟩ := by
  obtain ⟨e0, E', rfl⟩ := List.exists_cons_of_ne_nil hne
  show ((G.addEdge f e0).addEdgesFrom (E'.map (fun n => (f, n)))) = _
  have he0 : e0 ∈ G.nodes := hE e0 (List.mem_cons_self _ _)
  rw [addEdge_new_mem hw hf he0]
  rw [addEdgesFrom_all_mem _ _
    (fun x hx => by
      obtain ⟨n, hn, rfl⟩ := List.mem_map.mp hx
      exact ⟨List.mem_append.mpr (Or.inr (List.mem_singleton.mpr rfl)),
        List.mem_append.mpr (Or.inl (hE n (List.mem_cons_of_mem _ hn)))⟩)
    (fun x hx hm => by
      obtain ⟨n, hn, rfl⟩ := List.mem_map.mp hx
      rcases List.mem_append.mp hm with hm | hm
      · exact hf (hw.edgesWf _ hm).1
      · cases List.mem_singleton.mp hm
        exact (List.nodup_cons.mp hnodup).1 hn)
    ((List.nodup_cons.mp hnodup).2.map (fun a b h => by
      injection h with h1 h2))]
  simp

/-- Fanning a nonempty duplicate-free list of existing nodes into a fresh
sink `j` appends `j` and the fan edges. -/
theorem addEdgesFrom_fan_in {G : DiGraph} (hw : Wf G) {j : Action}
    {X : List Action} (hj : j ∉ G.nodes) (hX : ∀ n ∈ X, n ∈ G.nodes)
    (hnodup : X.Nodup) (hne : X ≠ []) :
    G.addEdgesFrom (X.map (fun n => (n, j))) =
      ⟨G.nodes ++ [j], G.edges ++ X.map (fun n => (n, j))⟩ := by
  obtain ⟨x0, X', rfl⟩ := List.exists_cons_of_ne_nil hne
  show ((G.addEdge x0 j).addEdgesFrom (X'.map (fun n => (n, j)))) = _
  have hx0 : x0 ∈ G.nodes := hX x0 (List.mem_cons_self _ _)
  rw [addEdge_mem_new hw hx0 hj]
  rw [addEdgesFrom_all_mem _ _
    (fun x hx => by
      obtain ⟨n, hn, rfl⟩ := List.mem_map.mp hx
      exact ⟨List.mem_append.mpr (Or.inl (hX n (List.mem_cons_of_mem _ hn))),
        List.mem_append.mpr (Or.inr (List.mem_singleton.mpr rfl))⟩)
    (fun x hx hm => by
      obtain ⟨n, hn, rfl⟩ := List.mem_map.mp hx
      rcases List.mem_append.mp hm with hm | hm
      · exact hj (hw.edgesWf _ hm).2
      · cases List.mem_singleton.mp hm
        exact (List.nodup_cons.mp hnodup).1 hn)
    ((List.nodup_cons.mp hnodup).2.map (fun a b h => by
      injection h with h1 h2))]
  simp

/-- The graph produced by wiring a fresh fork `f` to every entry node and
every exit node to a fresh join `j` (the edge lists built by
`add_fork_join` and `add_start_end`). -/
def wired (R : DiGraph) (f j : Action) : DiGraph :=
  ⟨R.nodes ++ [f, j],
   R.edges ++ (entryNodes R).map (fun n => (f, n)) ++
     (exitNodes R).map (fun n => (n, j))⟩

theorem wired_eq {R : DiGraph} (hw : Wf R) {f j : Action}
    (hf : f ∉ R.nodes) (hj : j ∉ R.nodes) (hfj : f ≠ j)
    (hE : entryNodes R ≠ []) (hX : exitNodes R ≠ []) :
    R.addEdgesFrom ((entryNodes R).map (fun n => (f, n)) ++
      (exitNodes R).map (fun n => (n, j))) = wired R f j := by
  rw [addEdgesFrom_append]
  have hEsub : ∀ n ∈ entryNodes R, n ∈ R.nodes :=
    fun n hn => (List.mem_filter.mp hn).1
  have hXsub : ∀ n ∈ exitNodes R, n ∈ R.nodes :=
    fun n hn => (List.mem_filter.mp hn).1
  rw [addEdgesFrom_fan_out hw hf hEsub (hw.nodesNodup.filter _) hE]
  have hw1 : Wf ⟨R.nodes ++ [f], R.edges ++ (entryNodes R).map (fun n => (f, n))⟩ := by
    constructor
    · exact List.Nodup.append hw.nodesNodup (List.nodup_singleton f)
        (fun a ha ha' => hf ((List.mem_singleton.mp ha') ▸ ha))
    · intro e he
      rcases List.mem_append.mp he with he | he
      · exact ⟨List.mem_append.mpr (Or.inl (hw.edgesWf _ he).1),
          List.mem_append.mpr (Or.inl (hw.edgesWf _ he).2)⟩
      · obtain ⟨n, hn, rfl⟩ := List.mem_map.mp he
        exact ⟨List.mem_append.mpr (Or.inr (List.mem_singleton.mpr rfl)),
          List.mem_append.mpr (Or.inl (hEsub n hn))⟩
  rw [addEdgesFrom_fan_in hw1
    (by
      intro hm
      rcases List.mem_append.mp hm with hm | hm
      · exact hj hm
      · exact hfj (List.mem_singleton.mp hm).symm)
    (fun n hn => List.mem_append.mpr (Or.inl (hXsub n hn)))
    (hw.nodesNodup.filter _) hX]
  simp [wired, List.append_assoc]

theorem wired_wf {R : DiGraph} (hw : Wf R) {f j : Action}
    (hf : f ∉ R.nodes) (hj : j ∉ R.nodes) (hfj : f ≠ j) :
    Wf (wired R f j) := by
  constructor
  · refine List.Nodup.append hw.nodesNodup ?_ ?_
    · simp [hfj]
    · intro a ha ha'
      rcases List.mem_cons.mp ha' with rfl | ha'
      · exact hf ha
      · cases List.mem_singleton.mp ha'
        exact hj ha
  · intro e he
    rcases List.mem_append.mp he with he | he
    · rcases List.mem_append.mp he with he | he
      · exact ⟨List.mem_append.mpr (Or.inl (hw.edgesWf _ he).1),
          List.mem_append.mpr (Or.inl (hw.edgesWf _ he).2)⟩
      · obtain ⟨n, hn, rfl⟩ := List.mem_map.mp he
        exact ⟨List.mem_append.mpr (Or.inr (by simp)),
          List.mem_append.mpr (Or.inl ((List.mem_filter.mp hn).1))⟩
    · obtain ⟨n, hn, rfl⟩ := List.mem_map.mp he
      exact ⟨List.mem_append.mpr (Or.inl ((List.mem_filter.mp hn).1)),
        List.mem_append.mpr (Or.inr (by simp))⟩

theorem mem_wired_edges (R : DiGraph) (f j : Action) (e : Action × Action) :
    e ∈ (wired R f j).edges ↔
      e ∈ R.edges ∨ (∃ n ∈ entryNodes R, (f, n) = e) ∨
        (∃ n ∈ exitNodes R, (n, j) = e) := by
  show e ∈ R.edges ++ (entryNodes R).map (fun n => (f, n)) ++
    (exitNodes R).map (fun n => (n, j)) ↔ _
  simp [or_assoc]

theorem mem_wired_nodes (R : DiGraph) (f j : Action) (a : Action) :
    a ∈ (wired R f j).nodes ↔ a ∈ R.nodes ∨ a = f ∨ a = j := by
  show a ∈ R.nodes ++ [f, j] ↔ _
  simp

theorem wired_isTopo {R : DiGraph} (hw : Wf R) {L : List Action}
    (ht : IsTopo R L) {f j : Action}
    (hf : f ∉ R.nodes) (hj : j ∉ R.nodes) (hfj : f ≠ j) :
    IsTopo (wired R f j) (f :: (L ++ [j])) := by
  have hfL : f ∉ L := fun h => hf ((ht.mem f).mp h)
  have hjL : j ∉ L := fun h => hj ((ht.mem j).mp h)
  have hEsub : ∀ n ∈ entryNodes R, n ∈ R.nodes :=
    fun n hn => (List.mem_filter.mp hn).1
  have hXsub : ∀ n ∈ exitNodes R, n ∈ R.nodes :=
    fun n hn => (List.mem_filter.mp hn).1
  refine ⟨?_, ?_, ?_, ?_⟩
  · rw [List.nodup_cons]
    refine ⟨?_, List.Nodup.append ht.nodup (List.nodup_singleton j)
      (fun a ha ha2 => hjL ((List.mem_singleton.mp ha2) ▸ ha))⟩
    intro hmem
    rcases List.mem_append.mp hmem with h | h
    · exact hfL h
    · exact hfj (List.mem_singleton.mp h)
  · intro a
    rw [mem_wired_nodes]
    simp only [List.mem_cons, List.mem_append, List.mem_singleton, ht.mem a]
    tauto
  · intro a ha
    rcases (mem_wired_edges R f j (a, a)).mp ha with h | h | h
    · exact ht.noSelf a h
    · obtain ⟨n, hn, hne⟩ := h
      injection hne with h1 h2
      cases h1
      exact hf (h2 ▸ hEsub n hn)
    · obtain ⟨n, hn, hne⟩ := h
      injection hne with h1 h2
      cases h2
      exact hj (h1 ▸ hXsub n hn)
  · rw [List.pairwise_cons]
    constructor
    · intro v hv hmem
      rcases (mem_wired_edges R f j (v, f)).mp hmem with h | h | h
      · exact hf (hw.edgesWf _ h).2
      · obtain ⟨n, hn, hne⟩ := h
        injection hne with h1 h2
        exact hf (h2 ▸ hEsub n hn)
      · obtain ⟨n, hn, hne⟩ := h
        injection hne with h1 h2
        exact hfj h2.symm
    · rw [List.pairwise_append]
      refine ⟨?_, ?_, ?_⟩
      · refine ht.pw.imp_of_mem ?_
        intro u v hu hv huv hmem
        rcases (mem_wired_edges R f j (v, u)).mp hmem with h | h | h
        · exact huv h
        · obtain ⟨n, hn, hne⟩ := h
          injection hne with h1 h2
          exact hfL (h1 ▸ hv)
        · obtain ⟨n, hn, hne⟩ := h
          injection hne with h1 h2
          exact hjL (h2 ▸ hu)
      · simp
      · intro u hu v hv hmem
        rw [List.mem_singleton.mp hv] at hmem
        rcases (mem_wired_edges R f j (j, u)).mp hmem with h | h | h
        · exact hj (hw.edgesWf _ h).1
        · obtain ⟨n, hn, hne⟩ := h
          injection hne with h1 h2
          exact hfj h1
        · obtain ⟨n, hn, hne⟩ := h
          injection hne with h1 h2
          exact hj (h1 ▸ hXsub n hn)

theorem inDegree_ne_zero_of_edge {G : DiGraph} {u v : Action}
    (h : (u, v) ∈ G.edges) : G.inDegree v ≠ 0 := by
  intro h0
  exact (inDegree_eq_zero_iff G v).mp h0 u h

theorem outDegree_ne_zero_of_edge {G : DiGraph} {u v : Action}
    (h : (u, v) ∈ G.edges) : G.outDegree u ≠ 0 := by
  intro h0
  exact (outDegree_eq_zero_iff G u).mp h0 v h

theorem exists_edge_of_inDegree_ne_zero {G : DiGraph} {v : Action}
    (h : G.inDegree v ≠ 0) : ∃ u, (u, v) ∈ G.edges := by
  by_contra hc
  push_neg at hc
  exact h ((inDegree_eq_zero_iff G v).mpr hc)

theorem exists_edge_of_outDegree_ne_zero {G : DiGraph} {u : Action}
    (h : G.outDegree u ≠ 0) : ∃ v, (u, v) ∈ G.edges := by
  by_contra hc
  push_neg at hc
  exact h ((outDegree_eq_zero_iff G u).mpr hc)

theorem wired_entryNodes {R : DiGraph} (hw : Wf R) {f j : Action}
    (hf : f ∉ R.nodes) (hj : j ∉ R.nodes) (hfj : f ≠ j)
    (hXne : exitNodes R ≠ []) :
    entryNodes (wired R f j) = [f] := by
  have hpf : (wired R f j).inDegree f = 0 := by
    rw [inDegree_eq_zero_iff]
    intro u hu
    rcases (mem_wired_edges R f j (u, f)).mp hu with h | h | h
    · exact hf (hw.edgesWf _ h).2
    · obtain ⟨n, hn, hne⟩ := h
      injection hne with h1 h2
      exact hf (h2 ▸ (List.mem_filter.mp hn).1)
    · obtain ⟨n, hn, hne⟩ := h
      injection hne with h1 h2
      exact hfj h2.symm
  have hpj : (wired R f j).inDegree j ≠ 0 := by
    obtain ⟨x0, hx0⟩ := List.exists_mem_of_ne_nil _ hXne
    exact inDegree_ne_zero_of_edge
      ((mem_wired_edges R f j (x0, j)).mpr (Or.inr (Or.inr ⟨x0, hx0, rfl⟩)))
  have hnodes : ∀ a ∈ R.nodes, (wired R f j).inDegree a ≠ 0 := by
    intro a ha
    by_cases hent : a ∈ entryNodes R
    · exact inDegree_ne_zero_of_edge
        ((mem_wired_edges R f j (f, a)).mpr (Or.inr (Or.inl ⟨a, hent, rfl⟩)))
    · have : R.inDegree a ≠ 0 := by
        intro h0
        exact hent (List.mem_filter.mpr ⟨ha, by simpa using h0⟩)
      obtain ⟨u, hu⟩ := exists_edge_of_inDegree_ne_zero this
      exact inDegree_ne_zero_of_edge
        ((mem_wired_edges R f j (u, a)).mpr (Or.inl hu))
  show (R.nodes ++ [f, j]).filter (fun n => (wired R f j).inDegree n = 0) = [f]
  rw [List.filter_append]
  rw [List.filter_eq_nil.mpr (fun a ha => by simpa using hnodes a ha)]
  rw [List.filter_cons_of_pos (by simpa using hpf)]
  rw [List.filter_cons_of_neg (by simpa using hpj)]
  rfl

theorem wired_exitNodes {R : DiGraph} (hw : Wf R) {f j : Action}
    (hf : f ∉ R.nodes) (hj : j ∉ R.nodes) (hfj : f ≠ j)
    (hEne : entryNodes R ≠ []) :
    exitNodes (wired R f j) = [j] := by
  have hpj : (wired R f j).outDegree j = 0 := by
    rw [outDegree_eq_zero_iff]
    intro v hv
    rcases (mem_wired_edges R f j (j, v)).mp hv with h | h | h
    · exact hj (hw.edgesWf _ h).1
    · obtain ⟨n, hn, hne⟩ := h
      injection hne with h1 h2
      exact hfj h1
    · obtain ⟨n, hn, hne⟩ := h
      injection hne with h1 h2
      exact hj (h1 ▸ (List.mem_filter.mp hn).1)
  have hpf : (wired R f j).outDegree f ≠ 0 := by
    obtain ⟨e0, he0⟩ := List.exists_mem_of_ne_nil _ hEne
    exact outDegree_ne_zero_of_edge
      ((mem_wired_edges R f j (f, e0)).mpr (Or.inr (Or.inl ⟨e0, he0, rfl⟩)))
  have hnodes : ∀ a ∈ R.nodes, (wired R f j).outDegree a ≠ 0 := by
    intro a ha
    by_cases hex : a ∈ exitNodes R
    · exact outDegree_ne_zero_of_edge
        ((mem_wired_edges R f j (a, j)).mpr (Or.inr (Or.inr ⟨a, hex, rfl⟩)))
    · have : R.outDegree a ≠ 0 := by
        intro h0
        exact hex (List.mem_filter.mpr ⟨ha, by simpa using h0⟩)
      obtain ⟨v, hv⟩ := exists_edge_of_outDegree_ne_zero this
      exact outDegree_ne_zero_of_edge
        ((mem_wired_edges R f j (a, v)).mpr (Or.inl hv))
  show (R.nodes ++ [f, j]).filter (fun n => (wired R f j).outDegree n = 0) = [j]
  rw [List.filter_append]
  rw [List.filter_eq_nil.mpr (fun a ha => by simpa using hnodes a ha)]
  rw [List.filter_cons_of_neg (by simpa using hpf)]
  rw [List.filter_cons_of_pos (by simpa using hpj)]
  rfl

/-- Adding an edge to a fresh sink `b` extends a topological order at the
back. -/
theorem isTopo_addEdge_newSink {G : DiGraph} (hw : Wf G) {L : List Action}
    (ht : IsTopo G L) {a b : Action} (ha : a ∈ G.nodes) (hb : b ∉ G.nodes) :
    IsTopo (G.addEdge a b) (L ++ [b]) := by
  rw [addEdge_mem_new hw ha hb]
  have hbL : b ∉ L := fun h => hb ((ht.mem b).mp h)
  refine ⟨?_, ?_, ?_, ?_⟩
  · exact List.Nodup.append ht.nodup (List.nodup_singleton b)
      (fun x hx hx2 => hbL ((List.mem_singleton.mp hx2) ▸ hx))
  · intro x
    show x ∈ L ++ [b] ↔ x ∈ G.nodes ++ [b]
    simp [ht.mem x]
  · intro x hx
    rcases List.mem_append.mp hx with h | h
    · exact ht.noSelf x h
    · cases List.mem_singleton.mp h
      exact hb (ha)
  · rw [List.pairwise_append]
    refine ⟨?_, by simp, ?_⟩
    · refine ht.pw.imp_of_mem ?_
      intro u v hu hv huv hmem
      rcases List.mem_append.mp hmem with h | h
      · exact huv h
      · cases List.mem_singleton.mp h
        exact hbL hu
    · intro u hu v hv hmem
      rw [List.mem_singleton.mp hv] at hmem
      rcases List.mem_append.mp hmem with h | h
      · exact hb (hw.edgesWf _ h).1
      · cases List.mem_singleton.mp h
        exact hbL hu

/-- Adding an edge from a fresh source `a` extends a topological order at
the front. -/
theorem isTopo_addEdge_newSource {G : DiGraph} (hw : Wf G) {L : List Action}
    (ht : IsTopo G L) {a b : Action} (ha : a ∉ G.nodes) (hb : b ∈ G.nodes) :
    IsTopo (G.addEdge a b) (a :: L) := by
  rw [addEdge_new_mem hw ha hb]
  have haL : a ∉ L := fun h => ha ((ht.mem a).mp h)
  refine ⟨?_, ?_, ?_, ?_⟩
  · exact List.nodup_cons.mpr ⟨haL, ht.nodup⟩
  · intro x
    show x ∈ a :: L ↔ x ∈ G.nodes ++ [a]
    simp [ht.mem x]
    tauto
  · intro x hx
    rcases List.mem_append.mp hx with h | h
    · exact ht.noSelf x h
    · cases List.mem_singleton.mp h
      exact ha hb
  · rw [List.pairwise_cons]
    constructor
    · intro v hv hmem
      rcases List.mem_append.mp hmem with h | h
      · exact ha (hw.edgesWf _ h).2
      · have := List.mem_singleton.mp h
        injection this with h1 h2
        exact ha (h2.symm ▸ hb)
    · refine ht.pw.imp_of_mem ?_
      intro u v hu hv huv hmem
      rcases List.mem_append.mp hmem with h | h
      · exact huv h
      · have := List.mem_singleton.mp h
        injection this with h1 h2
        exact haL (h1 ▸ hv)

/-- Adding a forward edge, from a node of the prefix to the head of the
suffix of a topological order, preserves the order. -/
theorem isTopo_addEdge_forward {G : DiGraph} {L1 L2 : List Action}
    {a b : Action} (ht : IsTopo G (L1 ++ b :: L2)) (ha : a ∈ L1)
    (hne : (a, b) ∉ G.edges) :
    IsTopo (G.addEdge a b) (L1 ++ b :: L2) := by
  have hamem : a ∈ G.nodes := (ht.mem a).mp (List.mem_append.mpr (Or.inl ha))
  have hbmem : b ∈ G.nodes :=
    (ht.mem b).mp (List.mem_append.mpr (Or.inr (List.mem_cons_self b L2)))
  rw [addEdge_mem_mem hamem hbmem hne]
  have hdisj : ∀ x ∈ L1, x ∉ b :: L2 := by
    have := ht.nodup
    rw [List.nodup_append] at this
    intro x hx hx2
    exact this.2.2 hx hx2
  have hab : a ≠ b := by
    intro h
    exact hdisj a ha (h ▸ List.mem_cons_self b L2)
  refine ⟨ht.nodup, ?_, ?_, ?_⟩
  · intro x
    show x ∈ L1 ++ b :: L2 ↔ x ∈ G.nodes
    exact ht.mem x
  · intro x hx
    rcases List.mem_append.mp hx with h | h
    · exact ht.noSelf x h
    · have := List.mem_singleton.mp h
      injection this with h1 h2
      exact hab (h1.symm.trans h2)
  · have hpw := ht.pw
    rw [List.pairwise_append] at hpw ⊢
    obtain ⟨pw1, pw2, cross⟩ := hpw
    have hbL1 : b ∉ L1 := fun h => hdisj b h (List.mem_cons_self b L2)
    have haL2 : a ∉ b :: L2 := hdisj a ha
    refine ⟨?_, ?_, ?_⟩
    · refine pw1.imp_of_mem ?_
      intro u v hu hv huv hmem
      rcases List.mem_append.mp hmem with h | h
      · exact huv h
      · have := List.mem_singleton.mp h
        injection this with h1 h2
        exact hbL1 (h2 ▸ hu)
    · refine pw2.imp_of_mem ?_
      intro u v hu hv huv hmem
      rcases List.mem_append.mp hmem with h | h
      · exact huv h
      · have := List.mem_singleton.mp h
        injection this with h1 h2
        exact haL2 (h1 ▸ hv)
    · intro x hx y hy
      have hcross := cross x hx y hy
      intro hmem
      rcases List.mem_append.mp hmem with h | h
      · exact hcross h
      · have := List.mem_singleton.mp h
        injection this with h1 h2
        exact hbL1 (h2 ▸ hx)

theorem preds_mk_append (N : List Action) (E1 E2 : List (Action × Action))
    (v : Action) :
    preds ⟨N, E1 ++ E2⟩ v = preds ⟨N, E1⟩ v ++ preds ⟨N, E2⟩ v :=
  List.filterMap_append _ _ _

theorem succs_mk_append (N : List Action) (E1 E2 : List (Action × Action))
    (u : Action) :
    succs ⟨N, E1 ++ E2⟩ u = succs ⟨N, E1⟩ u ++ succs ⟨N, E2⟩ u :=
  List.filterMap_append _ _ _

theorem preds_nodes_irrelevant (N N' : List Action)
    (E : List (Action × Action)) (v : Action) :
    preds ⟨N, E⟩ v = preds ⟨N', E⟩ v := rfl

/-- Degrees of an existing node after hanging a fresh sink `h` off node
`x`: in-degrees of old nodes are unchanged. -/
theorem addEdge_newSink_entryNodes {G : DiGraph} (hw : Wf G) {x h : Action}
    (hx : x ∈ G.nodes) (hh : h ∉ G.nodes) :
    entryNodes (G.addEdge x h) = entryNodes G := by
  rw [addEdge_mem_new hw hx hh]
  show (G.nodes ++ [h]).filter _ = G.nodes.filter _
  rw [List.filter_append]
  have hold : ∀ a ∈ G.nodes,
      inDegree ⟨G.nodes ++ [h], G.edges ++ [(x, h)]⟩ a = G.inDegree a := by
    intro a ha
    show (preds ⟨G.nodes ++ [h], G.edges ++ [(x, h)]⟩ a).length = _
    rw [preds_mk_append]
    have : preds ⟨G.nodes ++ [h], [(x, h)]⟩ a = [] := by
      show List.filterMap _ [(x, h)] = []
      simp only [List.filterMap_cons, List.filterMap_nil]
      rw [if_neg (fun hha : h = a => hh (hha ▸ ha))]
    rw [this, List.append_nil]
    rfl
  have hfh : inDegree ⟨G.nodes ++ [h], G.edges ++ [(x, h)]⟩ h ≠ 0 := by
    apply inDegree_ne_zero_of_edge (u := x)
    show (x, h) ∈ G.edges ++ [(x, h)]
    simp
  rw [List.filter_congr (fun a ha => by rw [hold a ha])]
  have : [h].filter
      (fun n => inDegree ⟨G.nodes ++ [h], G.edges ++ [(x, h)]⟩ n = 0) = [] := by
    rw [List.filter_eq_nil_iff]
    intro a ha
    rw [List.mem_singleton.mp ha]
    simpa using hfh
  rw [this, List.append_nil]

theorem addEdge_newSink_exitNodes {G : DiGraph} (hw : Wf G) {x h : Action}
    (hx : exitNodes G = [x]) (hh : h ∉ G.nodes) :
    exitNodes (G.addEdge x h) = [h] := by
  have hxn : x ∈ G.nodes :=
    (List.mem_filter.mp (hx ▸ List.mem_singleton.mpr rfl)).1
  rw [addEdge_mem_new hw hxn hh]
  show (G.nodes ++ [h]).filter _ = [h]
  rw [List.filter_append]
  have hold : ∀ a ∈ G.nodes,
      ¬ outDegree ⟨G.nodes ++ [h], G.edges ++ [(x, h)]⟩ a = 0 := by
    intro a ha
    by_cases hax : a = x
    · subst hax
      apply outDegree_ne_zero_of_edge (v := h)
      show (a, h) ∈ G.edges ++ [(a, h)]
      simp
    · have : G.outDegree a ≠ 0 := by
        intro h0
        have : a ∈ exitNodes G := List.mem_filter.mpr ⟨ha, by simpa using h0⟩
        rw [hx] at this
        exact hax (List.mem_singleton.mp this)
      obtain ⟨v, hv⟩ := exists_edge_of_outDegree_ne_zero this
      apply outDegree_ne_zero_of_edge (v := v)
      show (a, v) ∈ G.edges ++ [(x, h)]
      exact List.mem_append.mpr (Or.inl hv)
  have hfh : outDegree ⟨G.nodes ++ [h], G.edges ++ [(x, h)]⟩ h = 0 := by
    rw [outDegree_eq_zero_iff]
    intro v hv
    rcases List.mem_append.mp hv with hm | hm
    · exact hh (hw.edgesWf _ hm).1
    · have := List.mem_singleton.mp hm
      injection this with h1 h2
      exact hh (h1 ▸ hxn)
  rw [List.filter_eq_nil_iff.mpr (fun a ha => by simpa using hold a ha)]
  rw [List.nil_append]
  rw [List.filter_cons_of_pos (by simpa using hfh)]
  rfl

/-- Hanging the unique exit onto a node already in the graph leaves the
graph without any exit node. -/
theorem addEdge_sink_mem_exitNodes_nil {G : DiGraph} {x h : Action}
    (hx : exitNodes G = [x]) (hh : h ∈ G.nodes) :
    exitNodes (G.addEdge x h) = [] := by
  have hxn : x ∈ G.nodes :=
    (List.mem_filter.mp (hx ▸ List.mem_singleton.mpr rfl)).1
  have hxe : G.outDegree x = 0 := by
    have := List.mem_filter.mp (hx ▸ List.mem_singleton.mpr rfl)
    simpa using this.2
  have hne : (x, h) ∉ G.edges := by
    intro hm
    exact outDegree_ne_zero_of_edge hm hxe
  rw [addEdge_mem_mem hxn hh hne]
  show G.nodes.filter _ = []
  rw [List.filter_eq_nil_iff]
  intro a ha
  simp only [decide_eq_true_eq]
  by_cases hax : a = x
  · subst hax
    apply outDegree_ne_zero_of_edge (v := h)
    show (a, h) ∈ G.edges ++ [(a, h)]
    simp
  · have : G.outDegree a ≠ 0 := by
      intro h0
      have : a ∈ exitNodes G := List.mem_filter.mpr ⟨ha, by simpa using h0⟩
      rw [hx] at this
      exact hax (List.mem_singleton.mp this)
    obtain ⟨v, hv⟩ := exists_edge_of_outDegree_ne_zero this
    apply outDegree_ne_zero_of_edge (v := v)
    show (a, v) ∈ G.edges ++ [(x, h)]
    exact List.mem_append.mpr (Or.inl hv)

theorem mem_removeNodesFrom_nodes {G : DiGraph} {s : List Action} {a : Action} :
    a ∈ (G.removeNodesFrom s).nodes ↔ a ∈ G.nodes ∧ a ∉ s := by
  show a ∈ G.nodes.filter _ ↔ _
  rw [List.mem_filter]
  simp

theorem mem_removeNodesFrom_edges {G : DiGraph} {s : List Action}
    {e : Action × Action} :
    e ∈ (G.removeNodesFrom s).edges ↔ e ∈ G.edges ∧ e.1 ∉ s ∧ e.2 ∉ s := by
  show e ∈ G.edges.filter _ ↔ _
  rw [List.mem_filter]
  simp

theorem isTopo_nil_of_nodes_nil {G : DiGraph} (hw : Wf G)
    (hn : G.nodes = []) : IsTopo G [] := by
  refine ⟨List.nodup_nil, ?_, ?_, List.Pairwise.nil⟩
  · intro a
    rw [hn]
  · intro a ha
    have := (hw.edgesWf _ ha).1
    rw [hn] at this
    cases this

theorem kahnAux_isTopo :
    ∀ (fuel : Nat) (G : DiGraph) (L : List Action), Wf G →
      kahnAux fuel G = some L → IsTopo G L := by
  intro fuel
  induction fuel with
  | zero =>
    intro G L hw h
    unfold kahnAux at h
    by_cases hn : G.nodes = []
    · rw [if_pos hn] at h
      cases h
      exact isTopo_nil_of_nodes_nil hw hn
    · rw [if_neg hn] at h
      cases h
  | succ fuel ih =>
    intro G L hw h
    unfold kahnAux at h
    by_cases hn : G.nodes = []
    · rw [if_pos hn] at h
      cases h
      exact isTopo_nil_of_nodes_nil hw hn
    · rw [if_neg hn] at h
      by_cases hr : entryNodes G = []
      · rw [if_pos hr] at h
        cases h
      · rw [if_neg hr] at h
        obtain ⟨L2, hL2, rfl⟩ := Option.map_eq_some'.mp h
        have hwf2 : Wf (G.removeNodesFrom (entryNodes G)) :=
          wf_removeNodesFrom _ _ hw
        have ht2 := ih (G.removeNodesFrom (entryNodes G)) L2 hwf2 hL2
        have hrootNoIn : ∀ a ∈ entryNodes G, ∀ u, (u, a) ∉ G.edges := by
          intro a ha
          exact ((mem_entryNodes G a).mp ha).2
        have hL2sub : ∀ a ∈ L2, a ∈ G.nodes ∧ a ∉ entryNodes G := by
          intro a ha
          exact mem_removeNodesFrom_nodes.mp ((ht2.mem a).mp ha)
        refine ⟨?_, ?_, ?_, ?_⟩
        · refine List.Nodup.append (hw.nodesNodup.filter _) ht2.nodup ?_
          intro a ha ha2
          exact (hL2sub a ha2).2 ha
        · intro a
          rw [List.mem_append, ht2.mem, mem_removeNodesFrom_nodes]
          constructor
          · rintro (h1 | h1)
            · exact (List.mem_filter.mp h1).1
            · exact h1.1
          · intro h1
            by_cases h2 : a ∈ entryNodes G
            · exact Or.inl h2
            · exact Or.inr ⟨h1, h2⟩
        · intro a ha
          by_cases h2 : a ∈ entryNodes G
          · exact hrootNoIn a h2 a ha
          · have haN : a ∈ G.nodes := (hw.edgesWf _ ha).1
            exact ht2.noSelf a (mem_removeNodesFrom_edges.mpr ⟨ha, h2, h2⟩)
        · rw [List.pairwise_append]
          refine ⟨?_, ?_, ?_⟩
          · rw [List.pairwise_iff_forall_sublist]
            intro u v hsub
            have hu : u ∈ entryNodes G := hsub.subset (by simp)
            exact fun hm => hrootNoIn u hu v hm
          · refine ht2.pw.imp_of_mem ?_
            intro u v hu hv huv hmem
            exact huv (mem_removeNodesFrom_edges.mpr
              ⟨hmem, (hL2sub v hv).2, (hL2sub u hu).2⟩)
          · intro u hu v hv hmem
            exact hrootNoIn u hu v hmem

/-- Success of the acyclicity gate yields a topological order of the input
graph. -/
theorem kahnSort_isTopo {G : DiGraph} {L : List Action} (hw : Wf G)
    (h : kahnSort G = some L) : IsTopo G L :=
  kahnAux_isTopo _ G L hw h

end DiGraph

/-! ### Injectivity of the synthesized fork/join names -/

theorem digitChar_inj {a b : Nat} (ha : a < 10) (hb : b < 10)
    (h : Nat.digitChar a = Nat.digitChar b) : a = b := by
  interval_cases a <;> interval_cases b <;> (revert h; decide)

theorem map_digitChar_inj :
    ∀ (l1 l2 : List Nat), (∀ d ∈ l1, d < 10) → (∀ d ∈ l2, d < 10) →
      l1.map Nat.digitChar = l2.map Nat.digitChar → l1 = l2 := by
  intro l1
  induction l1 with
  | nil =>
    intro l2 _ _ h
    cases l2 with
    | nil => rfl
    | cons b t => cases h
  | cons a t1 ih =>
    intro l2 h1 h2 h
    cases l2 with
    | nil => cases h
    | cons b t2 =>
      injection h with hh ht
      have hab := digitChar_inj (h1 a (List.mem_cons_self _ _))
        (h2 b (List.mem_cons_self _ _)) hh
      rw [hab, ih t2 (fun d hd => h1 d (List.mem_cons_of_mem _ hd))
        (fun d hd => h2 d (List.mem_cons_of_mem _ hd)) ht]

theorem natStrData_inj : ∀ {m n : Nat}, natStrData m = natStrData n → m = n := by
  have hdig : ∀ k : Nat, ∀ d ∈ Nat.digits 10 k, d < 10 := by
    intro k d hd
    exact Nat.digits_lt_base (by norm_num) hd
  have hzero : ∀ k : Nat, k ≠ 0 →
      ((Nat.digits 10 k).map Nat.digitChar).reverse ≠ ['0'] := by
    intro k hk h
    have h2 : (Nat.digits 10 k).map Nat.digitChar = ['0'] := by
      have := congrArg List.reverse h
      rwa [List.reverse_reverse] at this
    have h3 : Nat.digits 10 k = [0] := by
      cases hd : Nat.digits 10 k with
      | nil => rw [hd] at h2; simp at h2
      | cons d t =>
        rw [hd] at h2
        cases t with
        | nil =>
          simp only [List.map_cons, List.map_nil] at h2
          injection h2 with hh _
          have : d = 0 := digitChar_inj
            (hdig k d (hd ▸ List.mem_cons_self _ _)) (by norm_num)
            (by rw [hh]; decide)
          rw [this]
        | cons d2 t2 =>
          simp only [List.map_cons] at h2
          injection h2 with _ ht
          simp at ht
    have := Nat.ofDigits_digits 10 k
    rw [h3] at this
    simp [Nat.ofDigits] at this
    exact hk this.symm
  intro m n h
  unfold natStrData at h
  by_cases hm : m = 0 <;> by_cases hn : n = 0
  · rw [hm, hn]
  · rw [if_pos hm, if_neg hn] at h
    exact absurd h.symm (hzero n hn)
  · rw [if_neg hm, if_pos hn] at h
    exact absurd h (hzero m hm)
  · rw [if_neg hm, if_neg hn] at h
    have h2 := congrArg List.reverse h
    rw [List.reverse_reverse, List.reverse_reverse] at h2
    have h3 := map_digitChar_inj _ _ (hdig m) (hdig n) h2
    have hm1 := Nat.ofDigits_digits 10 m
    have hn1 := Nat.ofDigits_digits 10 n
    rw [← hm1, ← hn1, h3]

theorem mkFork_inj {i j : Nat} (h : mkFork i = mkFork j) : i = j := by
  injection h with h1 _ _ _
  injection h1 with hdata
  exact natStrData_inj (List.append_cancel_left hdata)

theorem mkJoin_inj {i j : Nat} (h : mkJoin i = mkJoin j) : i = j := by
  injection h with h1 _ _ _
  injection h1 with hdata
  exact natStrData_inj (List.append_cancel_left hdata)

theorem mkFork_ne_mkJoin (i j : Nat) : mkFork i ≠ mkJoin j := by
  intro h
  injection h with _ h2 _ _
  exact absurd h2 (by decide)

theorem mkFork_dependencies (i : Nat) : (mkFork i).dependencies = none := rfl

theorem mkJoin_dependencies (i : Nat) : (mkJoin i).dependencies = none := rfl

theorem startAction_ne_mkFork (i : Nat) : startAction ≠ mkFork i := by
  intro h
  injection h with _ h2 _ _
  exact absurd h2 (by decide)

theorem startAction_ne_mkJoin (i : Nat) : startAction ≠ mkJoin i := by
  intro h
  injection h with _ h2 _ _
  exact absurd h2 (by decide)

theorem endAction_ne_mkFork (i : Nat) : endAction ≠ mkFork i := by
  intro h
  injection h with _ h2 _ _
  exact absurd h2 (by decide)

theorem endAction_ne_mkJoin (i : Nat) : endAction ≠ mkJoin i := by
  intro h
  injection h with _ h2 _ _
  exact absurd h2 (by decide)

/-- Shape of a synthesized fork node: reserved type `fork` and a `None`
dependency field (user actions that survive `build_input_graph` always
carry a real dependency set). -/
def forkShape (a : Action) : Bool :=
  a.action_type == "fork" && a.dependencies == none

/-- Shape of a synthesized join node. -/
def joinShape (a : Action) : Bool :=
  a.action_type == "join" && a.dependencies == none

theorem forkShape_mkFork (i : Nat) : forkShape (mkFork i) = true := rfl

theorem joinShape_mkJoin (i : Nat) : joinShape (mkJoin i) = true := rfl

theorem forkShape_mkJoin (i : Nat) : forkShape (mkJoin i) = false := rfl

theorem joinShape_mkFork (i : Nat) : joinShape (mkFork i) = false := rfl

theorem forkShape_user {a : Action} (h : a.dependencies ≠ none) :
    forkShape a = false := by
  unfold forkShape
  cases hd : a.dependencies with
  | none => exact absurd hd h
  | some l => simp

theorem joinShape_user {a : Action} (h : a.dependencies ≠ none) :
    joinShape a = false := by
  unfold joinShape
  cases hd : a.dependencies with
  | none => exact absurd hd h
  | some l => simp

/-! ### Soundness of the weak-component computation -/

namespace DiGraph

theorem closureAux_mono_vis (G : DiGraph) :
    ∀ (fuel : Nat) (vis frontier : List Action) (x : Action), x ∈ vis →
      x ∈ closureAux G fuel vis frontier := by
  intro fuel
  induction fuel with
  | zero => intro vis frontier x hx; exact hx
  | succ fuel ih =>
    intro vis frontier x hx
    cases frontier with
    | nil => exact hx
    | cons y rest =>
      show x ∈ (if y ∈ vis then closureAux G fuel vis rest
        else closureAux G fuel (vis ++ [y]) (rest ++ undirNbrs G y))
      by_cases hy : y ∈ vis
      · rw [if_pos hy]; exact ih _ _ _ hx
      · rw [if_neg hy]
        exact ih _ _ _ (List.mem_append.mpr (Or.inl hx))

theorem mem_closureAux_seed (G : DiGraph) (fuel : Nat) (vis rest : List Action)
    (x : Action) (hfuel : fuel ≠ 0) :
    x ∈ closureAux G fuel vis (x :: rest) := by
  cases fuel with
  | zero => exact absurd rfl hfuel
  | succ fuel =>
    show x ∈ (if x ∈ vis then closureAux G fuel vis rest
      else closureAux G fuel (vis ++ [x]) (rest ++ undirNbrs G x))
    by_cases hx : x ∈ vis
    · rw [if_pos hx]; exact closureAux_mono_vis G _ _ _ _ hx
    · rw [if_neg hx]
      exact closureAux_mono_vis G _ _ _ _ (List.mem_append.mpr (Or.inr (by simp)))

theorem undirNbrs_sub (G : DiGraph) (hw : Wf G) (u : Action) :
    ∀ a ∈ undirNbrs G u, a ∈ G.nodes := by
  intro a ha
  rcases List.mem_append.mp ha with h | h
  · exact (hw.edgesWf _ ((mem_succs G u a).mp h)).2
  · exact (hw.edgesWf _ ((mem_preds G a u).mp h)).1

theorem closureAux_sub (G : DiGraph) (hw : Wf G) :
    ∀ (fuel : Nat) (vis frontier : List Action),
      (∀ a ∈ vis, a ∈ G.nodes) → (∀ a ∈ frontier, a ∈ G.nodes) →
      ∀ a ∈ closureAux G fuel vis frontier, a ∈ G.nodes := by
  intro fuel
  induction fuel with
  | zero => intro vis frontier hv _ a ha; exact hv a ha
  | succ fuel ih =>
    intro vis frontier hv hf a ha
    cases frontier with
    | nil => exact hv a ha
    | cons y rest =>
      have ha2 : a ∈ (if y ∈ vis then closureAux G fuel vis rest
        else closureAux G fuel (vis ++ [y]) (rest ++ undirNbrs G y)) := ha
      by_cases hy : y ∈ vis
      · rw [if_pos hy] at ha2
        exact ih _ _ hv (fun b hb => hf b (List.mem_cons_of_mem _ hb)) a ha2
      · rw [if_neg hy] at ha2
        refine ih _ _ ?_ ?_ a ha2
        · intro b hb
          rcases List.mem_append.mp hb with h | h
          · exact hv b h
          · rw [List.mem_singleton.mp h]
            exact hf y (List.mem_cons_self _ _)
        · intro b hb
          rcases List.mem_append.mp hb with h | h
          · exact hf b (List.mem_cons_of_mem _ h)
          · exact undirNbrs_sub G hw y b h

theorem closureAux_nodup (G : DiGraph) :
    ∀ (fuel : Nat) (vis frontier : List Action), vis.Nodup →
      (closureAux G fuel vis frontier).Nodup := by
  intro fuel
  induction fuel with
  | zero => intro vis frontier hv; exact hv
  | succ fuel ih =>
    intro vis frontier hv
    cases frontier with
    | nil => exact hv
    | cons y rest =>
      show ((if y ∈ vis then closureAux G fuel vis rest
        else closureAux G fuel (vis ++ [y]) (rest ++ undirNbrs G y))).Nodup
      by_cases hy : y ∈ vis
      · rw [if_pos hy]; exact ih _ _ hv
      · rw [if_neg hy]
        refine ih _ _ (List.Nodup.append hv (List.nodup_singleton y) ?_)
        intro b hb hb2
        exact hy ((List.mem_singleton.mp hb2) ▸ hb)

/-- The invariant of the fold computing weak components. -/
structure WccInv (G : DiGraph) (st : List Action × List (List Action)) : Prop where
  compsSub : ∀ c ∈ st.2, ∀ a ∈ c, a ∈ st.1
  compsNodup : ∀ c ∈ st.2, c.Nodup
  compsG : ∀ c ∈ st.2, ∀ a ∈ c, a ∈ G.nodes
  compsNe : ∀ c ∈ st.2, c ≠ []
  disj : st.2.Pairwise (fun c1 c2 => ∀ a ∈ c1, a ∉ c2)

theorem wcc_fold_inv (G : DiGraph) (hw : Wf G) :
    ∀ (l : List Action) (st : List Action × List (List Action)),
      WccInv G st → (∀ a ∈ l, a ∈ G.nodes) →
      WccInv G (l.foldl
        (fun (st : List Action × List (List Action)) a =>
          if a ∈ st.1 then st
          else
            let comp := (closureAux G (closureFuel G) [] [a]).filter (· ∉ st.1)
            (st.1 ++ comp, st.2 ++ [comp])) st) := by
  intro l
  induction l with
  | nil => intro st hst _; exact hst
  | cons a rest ih =>
    intro st hst hl
    show WccInv G (List.foldl _ (if a ∈ st.1 then st else _) rest)
    by_cases ha : a ∈ st.1
    · rw [if_pos ha]
      exact ih st hst (fun b hb => hl b (List.mem_cons_of_mem _ hb))
    · rw [if_neg ha]
      refine ih _ ?_ (fun b hb => hl b (List.mem_cons_of_mem _ hb))
      have haG : a ∈ G.nodes := hl a (List.mem_cons_self _ _)
      have hfuel : closureFuel G ≠ 0 := by
        unfold closureFuel
        positivity
      have hseed : a ∈ (closureAux G (closureFuel G) [] [a]).filter
          (· ∉ st.1) := by
        rw [List.mem_filter]
        exact ⟨mem_closureAux_seed G _ _ _ _ hfuel, by simpa using ha⟩
      constructor
      · intro c hc b hb
        rcases List.mem_append.mp hc with h | h
        · exact List.mem_append.mpr (Or.inl (hst.compsSub c h b hb))
        · rw [List.mem_singleton.mp h] at hb
          exact List.mem_append.mpr (Or.inr hb)
      · intro c hc
        rcases List.mem_append.mp hc with h | h
        · exact hst.compsNodup c h
        · rw [List.mem_singleton.mp h]
          exact (closureAux_nodup G _ _ _ List.nodup_nil).filter _
      · intro c hc b hb
        rcases List.mem_append.mp hc with h | h
        · exact hst.compsG c h b hb
        · rw [List.mem_singleton.mp h] at hb
          exact closureAux_sub G hw _ _ _ (by simp)
            (by intro x hx; rw [List.mem_singleton.mp hx]; exact haG) b
            (List.mem_filter.mp hb).1
      · intro c hc
        rcases List.mem_append.mp hc with h | h
        · exact hst.compsNe c h
        · rw [List.mem_singleton.mp h]
          exact List.ne_nil_of_mem hseed
      · rw [List.pairwise_append]
        refine ⟨hst.disj, by simp, ?_⟩
        intro c1 h1 c2 h2 b hb
        rw [List.mem_singleton.mp h2]
        intro hb2
        have := (List.mem_filter.mp hb2).2
        simp only [decide_eq_true_eq] at this
        exact this (hst.compsSub c1 h1 b hb)

theorem wccList_inv (G : DiGraph) (hw : Wf G) :
    WccInv G (G.nodes.foldl
      (fun (st : List Action × List (List Action)) a =>
        if a ∈ st.1 then st
        else
          let comp := (closureAux G (closureFuel G) [] [a]).filter (· ∉ st.1)
          (st.1 ++ comp, st.2 ++ [comp])) ([], [])) := by
  refine wcc_fold_inv G hw G.nodes ([], []) ?_ (fun a ha => ha)
  constructor <;> simp

theorem succs_eq_nil_of_no_edge {N : List Action} {E : List (Action × Action)}
    {a : Action} (h : ∀ v, (a, v) ∉ E) : succs ⟨N, E⟩ a = [] := by
  unfold succs
  rw [List.filterMap_eq_nil_iff]
  rintro ⟨e1, e2⟩ he
  by_cases h1 : e1 = a
  · subst h1
    exact absurd he (h e2)
  · simp [succs, h1]

theorem preds_eq_nil_of_no_edge {N : List Action} {E : List (Action × Action)}
    {a : Action} (h : ∀ u, (u, a) ∉ E) : preds ⟨N, E⟩ a = [] := by
  unfold preds
  rw [List.filterMap_eq_nil_iff]
  rintro ⟨e1, e2⟩ he
  by_cases h1 : e2 = a
  · subst h1
    exact absurd he (h e1)
  · simp [preds, h1]

theorem compose_outDegree_left {G H : DiGraph} (hwG : Wf G) (hwH : Wf H)
    (hd : ∀ a ∈ H.nodes, a ∉ G.nodes) {a : Action} (ha : a ∉ H.nodes) :
    (G.compose H).outDegree a = G.outDegree a := by
  have he := compose_edges_of_disjoint G H hwG hwH hd
  show ((G.compose H).succs a).length = _
  have : (G.compose H).succs a = G.succs a := by
    show List.filterMap _ (G.compose H).edges = _
    rw [he]
    show succs ⟨(G.compose H).nodes, G.edges ++ H.edges⟩ a = _
    rw [succs_mk_append]
    have h2 : succs ⟨(G.compose H).nodes, H.edges⟩ a = [] :=
      succs_eq_nil_of_no_edge (fun v hv => ha (hwH.edgesWf _ hv).1)
    rw [h2, List.append_nil]
    rfl
  rw [this]
  rfl

theorem compose_outDegree_right {G H : DiGraph} (hwG : Wf G) (hwH : Wf H)
    (hd : ∀ a ∈ H.nodes, a ∉ G.nodes) {a : Action} (ha : a ∉ G.nodes) :
    (G.compose H).outDegree a = H.outDegree a := by
  have he := compose_edges_of_disjoint G H hwG hwH hd
  show ((G.compose H).succs a).length = _
  have : (G.compose H).succs a = H.succs a := by
    show List.filterMap _ (G.compose H).edges = _
    rw [he]
    show succs ⟨(G.compose H).nodes, G.edges ++ H.edges⟩ a = _
    rw [succs_mk_append]
    have h2 : succs ⟨(G.compose H).nodes, G.edges⟩ a = [] :=
      succs_eq_nil_of_no_edge (fun v hv => ha (hwG.edgesWf _ hv).1)
    rw [h2, List.nil_append]
    rfl
  rw [this]
  rfl

theorem compose_inDegree_left {G H : DiGraph} (hwG : Wf G) (hwH : Wf H)
    (hd : ∀ a ∈ H.nodes, a ∉ G.nodes) {a : Action} (ha : a ∉ H.nodes) :
    (G.compose H).inDegree a = G.inDegree a := by
  have he := compose_edges_of_disjoint G H hwG hwH hd
  show ((G.compose H).preds a).length = _
  have : (G.compose H).preds a = G.preds a := by
    show List.filterMap _ (G.compose H).edges = _
    rw [he]
    show preds ⟨(G.compose H).nodes, G.edges ++ H.edges⟩ a = _
    rw [preds_mk_append]
    have h2 : preds ⟨(G.compose H).nodes, H.edges⟩ a = [] :=
      preds_eq_nil_of_no_edge (fun u hu => ha (hwH.edgesWf _ hu).2)
    rw [h2, List.append_nil]
    rfl
  rw [this]
  rfl

theorem compose_inDegree_right {G H : DiGraph} (hwG : Wf G) (hwH : Wf H)
    (hd : ∀ a ∈ H.nodes, a ∉ G.nodes) {a : Action} (ha : a ∉ G.nodes) :
    (G.compose H).inDegree a = H.inDegree a := by
  have he := compose_edges_of_disjoint G H hwG hwH hd
  show ((G.compose H).preds a).length = _
  have : (G.compose H).preds a = H.preds a := by
    show List.filterMap _ (G.compose H).edges = _
    rw [he]
    show preds ⟨(G.compose H).nodes, G.edges ++ H.edges⟩ a = _
    rw [preds_mk_append]
    have h2 : preds ⟨(G.compose H).nodes, G.edges⟩ a = [] :=
      preds_eq_nil_of_no_edge (fun u hu => ha (hwG.edgesWf _ hu).2)
    rw [h2, List.nil_append]
    rfl
  rw [this]
  rfl

theorem compose_exitNodes {G H : DiGraph} (hwG : Wf G) (hwH : Wf H)
    (hd : ∀ a ∈ H.nodes, a ∉ G.nodes) :
    exitNodes (G.compose H) = exitNodes G ++ exitNodes H := by
  show (G.compose H).nodes.filter _ = _
  rw [compose_nodes_of_disjoint G H hd, List.filter_append]
  congr 1
  · apply List.filter_congr
    intro a ha
    rw [compose_outDegree_left hwG hwH hd (fun h2 => hd a h2 ha)]
  · apply List.filter_congr
    intro a ha
    rw [compose_outDegree_right hwG hwH hd (hd a ha)]

theorem compose_entryNodes {G H : DiGraph} (hwG : Wf G) (hwH : Wf H)
    (hd : ∀ a ∈ H.nodes, a ∉ G.nodes) :
    entryNodes (G.compose H) = entryNodes G ++ entryNodes H := by
  show (G.compose H).nodes.filter _ = _
  rw [compose_nodes_of_disjoint G H hd, List.filter_append]
  congr 1
  · apply List.filter_congr
    intro a ha
    rw [compose_inDegree_left hwG hwH hd (fun h2 => hd a h2 ha)]
  · apply List.filter_congr
    intro a ha
    rw [compose_inDegree_right hwG hwH hd (hd a ha)]

theorem numberOfNodes_eq_zero_iff (G : DiGraph) :
    G.numberOfNodes = 0 ↔ G.nodes = [] := by
  unfold numberOfNodes
  exact List.length_eq_zero

theorem mem_subgraphOf_nodes {G : DiGraph} {s : List Action} {a : Action} :
    a ∈ (G.subgraphOf s).nodes ↔ a ∈ G.nodes ∧ a ∈ s := by
  show a ∈ G.nodes.filter _ ↔ _
  rw [List.mem_filter]
  simp

theorem subgraphOf_edges_sub {G : DiGraph} {s : List Action}
    {e : Action × Action} (h : e ∈ (G.subgraphOf s).edges) : e ∈ G.edges :=
  (List.mem_filter.mp h).1

theorem removeNodesFrom_nil (G : DiGraph) : G.removeNodesFrom [] = G := by
  unfold removeNodesFrom
  cases G with
  | mk N E =>
    congr 1
    · exact List.filter_eq_self.mpr (fun a _ => by simp)
    · exact List.filter_eq_self.mpr (fun e _ => by simp)

theorem mem_exitNodes_nodes {G : DiGraph} {x : Action} (h : x ∈ exitNodes G) :
    x ∈ G.nodes := (List.mem_filter.mp h).1

theorem mem_entryNodes_nodes {G : DiGraph} {x : Action} (h : x ∈ entryNodes G) :
    x ∈ G.nodes := (List.mem_filter.mp h).1

end DiGraph

theorem head?_some_mem {α : Type _} {l : List α} {x : α}
    (h : l.head? = some x) : x ∈ l := by
  cases l with
  | nil => cases h
  | cons a t =>
    injection h with h1
    rw [h1]
    exact List.mem_cons_self _ _

theorem single_edge_path_head (G : DiGraph) (r : Action) :
    (single_edge_path G r).head? = some r := by
  rw [single_edge_path, sepGo_head]
  rfl

theorem single_edge_path_cons (G : DiGraph) (r : Action) :
    ∃ t, single_edge_path G r = r :: t := by
  have h := single_edge_path_head G r
  cases hp : single_edge_path G r with
  | nil => rw [hp] at h; cases h
  | cons a t =>
    rw [hp] at h
    injection h with h1
    rw [h1]
    exact ⟨t, rfl⟩

theorem mem_parrFlat_of_root {G : DiGraph} {r : Action}
    (h : r ∈ DiGraph.entryNodes G) : r ∈ parrFlat G := by
  rw [parrFlat, List.mem_flatten]
  refine ⟨single_edge_path G r, ?_, head?_some_mem (single_edge_path_head G r)⟩
  rw [parrPaths]
  exact List.mem_map.mpr ⟨r, h, rfl⟩

/-! ### The invariant carried through `parrallelize_subcomponent` -/

open DiGraph

/-- Facts about an accumulated structured graph `s` built from the user
actions `users` with fork/join indices in `[lo, hi)`. -/
structure SubOk (users : List Action) (lo hi : Nat) (s : DiGraph) : Prop where
  wf : Wf s
  topo : ∃ L, IsTopo s L
  prov : ∀ a ∈ s.nodes, (a ∈ users ∧ a.dependencies ≠ none) ∨
    (∃ i, lo ≤ i ∧ i < hi ∧ (a = mkFork i ∨ a = mkJoin i))
  forks : s.nodes.filter forkShape = (List.range' lo (hi - lo)).map mkFork
  joins : s.nodes.filter joinShape = (List.range' lo (hi - lo)).map mkJoin
  lohi : lo ≤ hi

theorem SubOk.mkFork_not_mem {users lo hi s} (h : SubOk users lo hi s)
    {c : Nat} (hc : hi ≤ c) : mkFork c ∉ s.nodes := by
  intro hmem
  have : mkFork c ∈ s.nodes.filter forkShape :=
    List.mem_filter.mpr ⟨hmem, forkShape_mkFork c⟩
  rw [h.forks] at this
  obtain ⟨i, hi1, hi2⟩ := List.mem_map.mp this
  have heq := mkFork_inj hi2
  rw [← heq] at hc
  have h2 := (List.mem_range'_1.mp hi1).2
  have h3 := h.lohi
  omega

theorem SubOk.mkJoin_not_mem {users lo hi s} (h : SubOk users lo hi s)
    {c : Nat} (hc : hi ≤ c) : mkJoin c ∉ s.nodes := by
  intro hmem
  have : mkJoin c ∈ s.nodes.filter joinShape :=
    List.mem_filter.mpr ⟨hmem, joinShape_mkJoin c⟩
  rw [h.joins] at this
  obtain ⟨i, hi1, hi2⟩ := List.mem_map.mp this
  have heq := mkJoin_inj hi2
  rw [← heq] at hc
  have h2 := (List.mem_range'_1.mp hi1).2
  have h3 := h.lohi
  omega

theorem range'_map_extend {c0 c : Nat} (h : c0 ≤ c)
    (f : Nat → Action) :
    (List.range' c0 (c - c0)).map f ++ [f c] =
      (List.range' c0 (c + 1 - c0)).map f := by
  have h1 : c + 1 - c0 = (c - c0) + 1 := by omega
  rw [h1, List.range'_1_concat, List.map_append]
  have h2 : c0 + (c - c0) = c := by omega
  rw [h2]
  rfl

/-- The invariant of the `parrallelize_subcomponent` loop: `C0` is the node
list of the component being processed, `c0` the counter at entry, `G` the
remaining graph, `sub` the accumulated structured graph and `c` the current
counter. -/
structure PInv (C0 : List Action) (c0 : Nat) (G sub : DiGraph) (c : Nat) :
    Prop where
  wfG : Wf G
  topoG : ∃ L, IsTopo G L
  gUser : ∀ a ∈ G.nodes, a.dependencies ≠ none
  gSub : ∀ a ∈ G.nodes, a ∈ C0
  disj : ∀ a ∈ sub.nodes, a ∉ G.nodes
  subOk : SubOk C0 c0 c sub
  nonempty : G.nodes ≠ [] ∨ sub.nodes ≠ []

/-- Properties of the wired `result` graph in the multi-path branch. -/
theorem parrResult_spec {C0 : List Action} {c0 : Nat} {G sub : DiGraph}
    {c : Nat} (hin : PInv C0 c0 G sub c) (hGne : G.nodes ≠ [])
    (hE0 : entryNodes G ≠ []) :
    parrResult G c = wired (G.subgraphOf (parrFlat G)) (mkFork c) (mkJoin c) ∧
    entryNodes (parrResult G c) = [mkFork c] ∧
    exitNodes (parrResult G c) = [mkJoin c] ∧
    Wf (parrResult G c) ∧
    (∃ Lr, IsTopo (parrResult G c)
      (mkFork c :: (Lr ++ [mkJoin c]))) := by
  obtain ⟨LG, hLG⟩ := hin.topoG
  have hwR : Wf (G.subgraphOf (parrFlat G)) := wf_subgraphOf _ _ hin.wfG
  have htR : IsTopo (G.subgraphOf (parrFlat G))
      (LG.filter (fun a => decide (a ∈ parrFlat G))) := by
    refine isTopo_of_filter hLG (fun a => a ∈ parrFlat G) (fun a => inferInstance)
      (fun a => ?_) (fun e he => subgraphOf_edges_sub he)
    rw [mem_subgraphOf_nodes]
  have hRsub : ∀ a ∈ (G.subgraphOf (parrFlat G)).nodes, a ∈ G.nodes :=
    fun a ha => (mem_subgraphOf_nodes.mp ha).1
  have hRne : (G.subgraphOf (parrFlat G)).nodes ≠ [] := by
    obtain ⟨r, hr⟩ := List.exists_mem_of_ne_nil _ hE0
    refine List.ne_nil_of_mem (a := r) ?_
    rw [mem_subgraphOf_nodes]
    exact ⟨mem_entryNodes_nodes hr, mem_parrFlat_of_root hr⟩
  have hfR : mkFork c ∉ (G.subgraphOf (parrFlat G)).nodes := by
    intro hm
    exact hin.gUser _ (hRsub _ hm) (mkFork_dependencies c)
  have hjR : mkJoin c ∉ (G.subgraphOf (parrFlat G)).nodes := by
    intro hm
    exact hin.gUser _ (hRsub _ hm) (mkJoin_dependencies c)
  have hfj : mkFork c ≠ mkJoin c := mkFork_ne_mkJoin c c
  have hEne : entryNodes (G.subgraphOf (parrFlat G)) ≠ [] :=
    htR.entryNodes_ne_nil hwR hRne
  have hXne : exitNodes (G.subgraphOf (parrFlat G)) ≠ [] :=
    htR.exitNodes_ne_nil hwR hRne
  have heq : parrResult G c =
      wired (G.subgraphOf (parrFlat G)) (mkFork c) (mkJoin c) := by
    rw [parrResult]
    exact wired_eq hwR hfR hjR hfj hEne hXne
  refine ⟨heq, ?_, ?_, ?_, ?_⟩
  · rw [heq]
    exact wired_entryNodes hwR hfR hjR hfj hXne
  · rw [heq]
    exact wired_exitNodes hwR hfR hjR hfj hEne
  · rw [heq]
    exact wired_wf hwR hfR hjR hfj
  · rw [heq]
    exact ⟨_, wired_isTopo hwR htR hfR hjR hfj⟩

/-- The loop body preserves the invariant and never decreases the
counter. -/
theorem parrStep_inv {C0 : List Action} {c0 : Nat} {G sub : DiGraph} {c : Nat}
    {out : DiGraph × DiGraph × Nat}
    (hok : parrStep G sub c = .ok out) (hin : PInv C0 c0 G sub c)
    (hGne : G.nodes ≠ []) :
    PInv C0 c0 out.1 out.2.1 out.2.2 ∧ c ≤ out.2.2 := by
  obtain ⟨LG, hLG⟩ := hin.topoG
  obtain ⟨Lsub, hLsub⟩ := hin.subOk.topo
  have hwSub := hin.subOk.wf
  have hE0 : entryNodes G ≠ [] := hLG.entryNodes_ne_nil hin.wfG hGne
  -- facts about any removal from G
  have hG' : ∀ s : List Action,
      Wf (G.removeNodesFrom s) ∧
      (∃ L, IsTopo (G.removeNodesFrom s) L) ∧
      (∀ a ∈ (G.removeNodesFrom s).nodes, a.dependencies ≠ none) ∧
      (∀ a ∈ (G.removeNodesFrom s).nodes, a ∈ C0) := by
    intro s
    refine ⟨wf_removeNodesFrom _ _ hin.wfG,
      ⟨LG.filter (fun a => decide (a ∉ s)), ?_⟩, ?_, ?_⟩
    · exact isTopo_of_filter hLG (fun a => a ∉ s) (fun a => inferInstance)
        (fun a => mem_removeNodesFrom_nodes)
        (fun e he => (mem_removeNodesFrom_edges.mp he).1)
    · intro a ha
      exact hin.gUser a (mem_removeNodesFrom_nodes.mp ha).1
    · intro a ha
      exact hin.gSub a (mem_removeNodesFrom_nodes.mp ha).1
  have hfresh_flat : ∀ a, a ∈ parrFlat G →
      a ∉ (G.removeNodesFrom (parrFlat G)).nodes := by
    intro a hf hmem
    exact (mem_removeNodesFrom_nodes.mp hmem).2 hf
  unfold parrStep at hok
  by_cases h1 : 1 < (parrPaths G).length
  · rw [if_pos h1] at hok
    obtain ⟨heqR, hEnt, hExt, hwR2, Lr, htR2⟩ := parrResult_spec hin hGne hE0
    have hnodesR : (parrResult G c).nodes =
        (G.subgraphOf (parrFlat G)).nodes ++ [mkFork c, mkJoin c] := by
      rw [heqR]
      rfl
    have hdisjR : ∀ a ∈ (parrResult G c).nodes, a ∉ sub.nodes := by
      intro a ha hsub
      rw [hnodesR] at ha
      rcases List.mem_append.mp ha with h | h
      · exact hin.disj a hsub (mem_subgraphOf_nodes.mp h).1
      · rcases List.mem_cons.mp h with rfl | h
        · exact hin.subOk.mkFork_not_mem (Nat.le_refl c) hsub
        · rw [List.mem_singleton.mp h] at hsub
          exact hin.subOk.mkJoin_not_mem (Nat.le_refl c) hsub
    have hwS' : Wf (sub.compose (parrResult G c)) :=
      wf_compose _ _ hwSub hwR2 hdisjR
    have htS' : IsTopo (sub.compose (parrResult G c))
        (Lsub ++ (mkFork c :: (Lr ++ [mkJoin c]))) :=
      isTopo_compose hLsub htR2 hwSub hwR2 hdisjR
    have hnodesS' : (sub.compose (parrResult G c)).nodes =
        sub.nodes ++ (parrResult G c).nodes :=
      compose_nodes_of_disjoint _ _ hdisjR
    -- SubOk of the composed graph at counter c + 1, common to both cases
    have hprovS' : ∀ a ∈ (sub.compose (parrResult G c)).nodes,
        (a ∈ C0 ∧ a.dependencies ≠ none) ∨
        (∃ i, c0 ≤ i ∧ i < c + 1 ∧ (a = mkFork i ∨ a = mkJoin i)) := by
      intro a ha
      rw [hnodesS'] at ha
      rcases List.mem_append.mp ha with h | h
      · rcases hin.subOk.prov a h with h2 | ⟨i, hi1, hi2, hi3⟩
        · exact Or.inl h2
        · exact Or.inr ⟨i, hi1, by omega, hi3⟩
      · rw [hnodesR] at h
        rcases List.mem_append.mp h with h2 | h2
        · have hG := (mem_subgraphOf_nodes.mp h2).1
          exact Or.inl ⟨hin.gSub a hG, hin.gUser a hG⟩
        · rcases List.mem_cons.mp h2 with rfl | h2
          · exact Or.inr ⟨c, hin.subOk.lohi, by omega, Or.inl rfl⟩
          · rw [List.mem_singleton.mp h2]
            exact Or.inr ⟨c, hin.subOk.lohi, by omega, Or.inr rfl⟩
    have hsubgraphUser : ∀ a ∈ (G.subgraphOf (parrFlat G)).nodes,
        a.dependencies ≠ none :=
      fun a ha => hin.gUser a (mem_subgraphOf_nodes.mp ha).1
    have hforksS' : (sub.compose (parrResult G c)).nodes.filter forkShape =
        (List.range' c0 (c + 1 - c0)).map mkFork := by
      rw [hnodesS', hnodesR, List.filter_append, List.filter_append]
      rw [hin.subOk.forks]
      rw [List.filter_eq_nil_iff.mpr
        (fun a ha => by simp [forkShape_user (hsubgraphUser a ha)])]
      rw [List.filter_cons_of_pos (forkShape_mkFork c)]
      rw [List.filter_cons_of_neg (by rw [forkShape_mkJoin]; simp)]
      rw [List.filter_nil, List.nil_append]
      exact range'_map_extend hin.subOk.lohi mkFork
    have hjoinsS' : (sub.compose (parrResult G c)).nodes.filter joinShape =
        (List.range' c0 (c + 1 - c0)).map mkJoin := by
      rw [hnodesS', hnodesR, List.filter_append, List.filter_append]
      rw [hin.subOk.joins]
      rw [List.filter_eq_nil_iff.mpr
        (fun a ha => by simp [joinShape_user (hsubgraphUser a ha)])]
      rw [List.filter_cons_of_neg (by rw [joinShape_mkFork]; simp)]
      rw [List.filter_cons_of_pos (joinShape_mkJoin c)]
      rw [List.filter_nil, List.nil_append]
      exact range'_map_extend hin.subOk.lohi mkJoin
    have hdisjNew : ∀ a ∈ (sub.compose (parrResult G c)).nodes,
        a ∉ (G.removeNodesFrom (parrFlat G)).nodes := by
      intro a ha hmem
      rw [hnodesS'] at ha
      have haG := (mem_removeNodesFrom_nodes.mp hmem).1
      rcases List.mem_append.mp ha with h | h
      · exact hin.disj a h haG
      · rw [hnodesR] at h
        rcases List.mem_append.mp h with h2 | h2
        · exact hfresh_flat a (mem_subgraphOf_nodes.mp h2).2 hmem
        · rcases List.mem_cons.mp h2 with rfl | h2
          · exact hin.gUser _ haG (mkFork_dependencies c)
          · rw [List.mem_singleton.mp h2] at haG
            exact hin.gUser _ haG (mkJoin_dependencies c)
    have hforkMemS' : mkFork c ∈ (sub.compose (parrResult G c)).nodes := by
      rw [hnodesS', hnodesR]
      simp
    by_cases h2 : sub.numberOfNodes ≠ 0
    · rw [if_pos h2] at hok
      have hsubne : sub.nodes ≠ [] := by
        intro h
        exact h2 ((numberOfNodes_eq_zero_iff sub).mpr h)
      have hXsub : exitNodes sub ≠ [] := hLsub.exitNodes_ne_nil hwSub hsubne
      obtain ⟨x, xs, hxs⟩ := List.exists_cons_of_ne_nil hXsub
      have hexitS' : exitNodes (sub.compose (parrResult G c)) =
          x :: (xs ++ [mkJoin c]) := by
        rw [compose_exitNodes hwSub hwR2 hdisjR, hExt, hxs]
        rfl
      rw [hEnt, hexitS'] at hok
      have hok2 : Except.ok (ε := PyError) (G.removeNodesFrom (parrFlat G),
          (sub.compose (parrResult G c)).addEdge x (mkFork c),
          (addForkJoin (G.subgraphOf (parrFlat G)) c).2) = Except.ok out := hok
      injection hok2 with hout
      subst hout
      have hxsub : x ∈ sub.nodes :=
        mem_exitNodes_nodes (hxs ▸ List.mem_cons_self x xs)
      have hxS' : x ∈ (sub.compose (parrResult G c)).nodes := by
        rw [hnodesS']
        exact List.mem_append.mpr (Or.inl hxsub)
      have hxout : (sub.compose (parrResult G c)).outDegree x = 0 := by
        rw [compose_outDegree_left hwSub hwR2 hdisjR
          (fun hmem => hdisjR x hmem hxsub)]
        have := List.mem_filter.mp (hxs ▸ List.mem_cons_self x xs)
        simpa using this.2
      have hxnoedge : (x, mkFork c) ∉ (sub.compose (parrResult G c)).edges := by
        intro hmem
        exact outDegree_ne_zero_of_edge hmem hxout
      have haddeq : (sub.compose (parrResult G c)).addEdge x (mkFork c) =
          ⟨(sub.compose (parrResult G c)).nodes,
           (sub.compose (parrResult G c)).edges ++ [(x, mkFork c)]⟩ :=
        addEdge_mem_mem hxS' hforkMemS' hxnoedge
      refine ⟨⟨(hG' _).1, (hG' _).2.1, (hG' _).2.2.1, (hG' _).2.2.2, ?_,
        ⟨?_, ?_, ?_, ?_, ?_,
         by show c0 ≤ c + 1; have := hin.subOk.lohi; omega⟩, ?_⟩,
        by show c ≤ c + 1; omega⟩
      · intro a ha
        rw [haddeq] at ha
        exact hdisjNew a ha
      · exact wf_addEdge _ _ _ hwS'
      · refine ⟨Lsub ++ (mkFork c :: (Lr ++ [mkJoin c])), ?_⟩
        exact isTopo_addEdge_forward htS' ((hLsub.mem x).mpr hxsub) hxnoedge
      · intro a ha
        rw [haddeq] at ha
        exact hprovS' a ha
      · rw [haddeq]
        exact hforksS'
      · rw [haddeq]
        exact hjoinsS'
      · refine Or.inr (List.ne_nil_of_mem (a := mkFork c) ?_)
        rw [haddeq]
        exact hforkMemS'
    · rw [if_neg h2] at hok
      have hok2 : Except.ok (ε := PyError) (G.removeNodesFrom (parrFlat G),
          sub.compose (parrResult G c),
          (addForkJoin (G.subgraphOf (parrFlat G)) c).2) = Except.ok out := hok
      injection hok2 with hout
      subst hout
      refine ⟨⟨(hG' _).1, (hG' _).2.1, (hG' _).2.2.1, (hG' _).2.2.2, hdisjNew,
        ⟨hwS', ⟨_, htS'⟩, hprovS', hforksS', hjoinsS',
         by show c0 ≤ c + 1; have := hin.subOk.lohi; omega⟩, ?_⟩,
        by show c ≤ c + 1; omega⟩
      exact Or.inr (List.ne_nil_of_mem hforkMemS')
  · rw [if_neg h1] at hok
    by_cases h3 : (parrPaths G).length = 1
    · rw [if_pos h3] at hok
      -- exactly one root r
      obtain ⟨r, hEr⟩ : ∃ r, entryNodes G = [r] := by
        have : (entryNodes G).length = 1 := by
          rw [parrPaths, List.length_map] at h3
          exact h3
        exact List.length_eq_one.mp this
      have hrG : r ∈ G.nodes :=
        mem_entryNodes_nodes (hEr ▸ List.mem_cons_self r [])
      obtain ⟨t, hsep⟩ := single_edge_path_cons G r
      have hflat : parrFlat G = r :: (t ++ []) := by
        rw [parrFlat, parrPaths, hEr, List.map_cons, List.map_nil,
          List.flatten, hsep]
        rfl
      have hrflat : r ∈ parrFlat G := by
        rw [hflat]
        exact List.mem_cons_self _ _
      have hrsub : r ∉ sub.nodes := fun h => hin.disj r h hrG
      by_cases h2 : sub.numberOfNodes ≠ 0
      · rw [if_pos h2] at hok
        have hsubne : sub.nodes ≠ [] := by
          intro h
          exact h2 ((numberOfNodes_eq_zero_iff sub).mpr h)
        have hXsub : exitNodes sub ≠ [] := hLsub.exitNodes_ne_nil hwSub hsubne
        obtain ⟨x, xs, hxs⟩ := List.exists_cons_of_ne_nil hXsub
        rw [hxs, hflat] at hok
        have hok2 : Except.ok (ε := PyError)
            (G.removeNodesFrom (r :: (t ++ [])), sub.addEdge x r, c) =
            Except.ok out := hok
        injection hok2 with hout
        subst hout
        rw [← hflat]
        have hxsub : x ∈ sub.nodes :=
          mem_exitNodes_nodes (hxs ▸ List.mem_cons_self x xs)
        have haddeq : sub.addEdge x r =
            ⟨sub.nodes ++ [r], sub.edges ++ [(x, r)]⟩ :=
          addEdge_mem_new hwSub hxsub hrsub
        refine ⟨⟨(hG' _).1, (hG' _).2.1, (hG' _).2.2.1, (hG' _).2.2.2, ?_,
          ⟨?_, ?_, ?_, ?_, ?_, hin.subOk.lohi⟩, ?_⟩, Nat.le_refl c⟩
        · intro a ha hmem
          rw [haddeq] at ha
          rcases List.mem_append.mp ha with h | h
          · exact hin.disj a h (mem_removeNodesFrom_nodes.mp hmem).1
          · rw [List.mem_singleton.mp h] at hmem
            exact hfresh_flat r hrflat hmem
        · exact wf_addEdge _ _ _ hwSub
        · exact ⟨Lsub ++ [r], isTopo_addEdge_newSink hwSub hLsub hxsub hrsub⟩
        · intro a ha
          rw [haddeq] at ha
          rcases List.mem_append.mp ha with h | h
          · exact hin.subOk.prov a h
          · rw [List.mem_singleton.mp h]
            exact Or.inl ⟨hin.gSub r hrG, hin.gUser r hrG⟩
        · rw [haddeq]
          show (sub.nodes ++ [r]).filter forkShape = _
          rw [List.filter_append, hin.subOk.forks,
            List.filter_cons_of_neg (by simp [forkShape_user (hin.gUser r hrG)]),
            List.filter_nil, List.append_nil]
        · rw [haddeq]
          show (sub.nodes ++ [r]).filter joinShape = _
          rw [List.filter_append, hin.subOk.joins,
            List.filter_cons_of_neg (by simp [joinShape_user (hin.gUser r hrG)]),
            List.filter_nil, List.append_nil]
        · refine Or.inr (List.ne_nil_of_mem (a := r) ?_)
          rw [haddeq]
          exact List.mem_append.mpr (Or.inr (List.mem_singleton.mpr rfl))
      · rw [if_neg h2] at hok
        have hok2 : Except.ok (ε := PyError) (G.removeNodesFrom (parrFlat G),
            sub.compose (G.subgraphOf (parrFlat G)), c) = Except.ok out := hok
        injection hok2 with hout
        subst hout
        have hwR : Wf (G.subgraphOf (parrFlat G)) := wf_subgraphOf _ _ hin.wfG
        have htR : IsTopo (G.subgraphOf (parrFlat G))
            (LG.filter (fun a => decide (a ∈ parrFlat G))) := by
          refine isTopo_of_filter hLG (fun a => a ∈ parrFlat G)
            (fun a => inferInstance) (fun a => ?_)
            (fun e he => subgraphOf_edges_sub he)
          rw [mem_subgraphOf_nodes]
        have hdisjR : ∀ a ∈ (G.subgraphOf (parrFlat G)).nodes,
            a ∉ sub.nodes := by
          intro a ha hsub
          exact hin.disj a hsub (mem_subgraphOf_nodes.mp ha).1
        have hnodesS' : (sub.compose (G.subgraphOf (parrFlat G))).nodes =
            sub.nodes ++ (G.subgraphOf (parrFlat G)).nodes :=
          compose_nodes_of_disjoint _ _ hdisjR
        have hsubgraphUser : ∀ a ∈ (G.subgraphOf (parrFlat G)).nodes,
            a.dependencies ≠ none :=
          fun a ha => hin.gUser a (mem_subgraphOf_nodes.mp ha).1
        refine ⟨⟨(hG' _).1, (hG' _).2.1, (hG' _).2.2.1, (hG' _).2.2.2, ?_,
          ⟨wf_compose _ _ hwSub hwR hdisjR,
           ⟨_, isTopo_compose hLsub htR hwSub hwR hdisjR⟩, ?_, ?_, ?_,
           hin.subOk.lohi⟩, ?_⟩, Nat.le_refl c⟩
        · intro a ha hmem
          rw [hnodesS'] at ha
          rcases List.mem_append.mp ha with h | h
          · exact hin.disj a h (mem_removeNodesFrom_nodes.mp hmem).1
          · exact hfresh_flat a (mem_subgraphOf_nodes.mp h).2 hmem
        · intro a ha
          rw [hnodesS'] at ha
          rcases List.mem_append.mp ha with h | h
          · exact hin.subOk.prov a h
          · have hG := (mem_subgraphOf_nodes.mp h).1
            exact Or.inl ⟨hin.gSub a hG, hin.gUser a hG⟩
        · rw [hnodesS', List.filter_append, hin.subOk.forks,
            List.filter_eq_nil_iff.mpr
              (fun a ha => by simp [forkShape_user (hsubgraphUser a ha)]),
            List.append_nil]
        · rw [hnodesS', List.filter_append, hin.subOk.joins,
            List.filter_eq_nil_iff.mpr
              (fun a ha => by simp [joinShape_user (hsubgraphUser a ha)]),
            List.append_nil]
        · refine Or.inr (List.ne_nil_of_mem (a := r) ?_)
          rw [hnodesS']
          refine List.mem_append.mpr (Or.inr ?_)
          rw [mem_subgraphOf_nodes]
          exact ⟨hrG, hrflat⟩
    · exfalso
      have : (parrPaths G).length = 0 := by omega
      rw [parrPaths, List.length_map] at this
      exact hE0 (List.length_eq_zero.mp this)

/-- A successful run of the `parrallelize_subcomponent` loop yields an
accumulated structured graph satisfying `SubOk`, nonempty, with a counter
that never decreased. -/
theorem parrallelizeAux_ok {C0 : List Action} {c0 : Nat} :
    ∀ (fuel : Nat) (G sub : DiGraph) (c : Nat) (out : DiGraph × Nat),
      parrallelizeAux fuel G sub c = .ok out → PInv C0 c0 G sub c →
      SubOk C0 c0 out.2 out.1 ∧ out.1.nodes ≠ [] ∧ c ≤ out.2 := by
  intro fuel
  induction fuel with
  | zero =>
    intro G sub c out hok hin
    unfold parrallelizeAux at hok
    by_cases hn : G.numberOfNodes = 0
    · rw [if_pos hn] at hok
      injection hok with hout
      subst hout
      have hGnil : G.nodes = [] := (numberOfNodes_eq_zero_iff G).mp hn
      have hsubne : sub.nodes ≠ [] := by
        rcases hin.nonempty with h | h
        · exact absurd hGnil h
        · exact h
      exact ⟨hin.subOk, hsubne, Nat.le_refl c⟩
    · rw [if_neg hn] at hok
      cases hok
  | succ fuel ih =>
    intro G sub c out hok hin
    unfold parrallelizeAux at hok
    by_cases hn : G.numberOfNodes = 0
    · rw [if_pos hn] at hok
      injection hok with hout
      subst hout
      have hGnil : G.nodes = [] := (numberOfNodes_eq_zero_iff G).mp hn
      have hsubne : sub.nodes ≠ [] := by
        rcases hin.nonempty with h | h
        · exact absurd hGnil h
        · exact h
      exact ⟨hin.subOk, hsubne, Nat.le_refl c⟩
    · rw [if_neg hn] at hok
      cases hst : parrStep G sub c with
      | error e =>
        rw [hst] at hok
        have hok2 : (Except.error e : Except PyError (DiGraph × Nat)) =
            .ok out := hok
        cases hok2
      | ok st =>
        rw [hst] at hok
        have hok2 : parrallelizeAux fuel st.1 st.2.1 st.2.2 = .ok out := hok
        have hGne : G.nodes ≠ [] :=
          fun h => hn ((numberOfNodes_eq_zero_iff G).mpr h)
        obtain ⟨hinv2, hle⟩ := parrStep_inv hst hin hGne
        obtain ⟨h1, h2, h3⟩ := ih st.1 st.2.1 st.2.2 out hok2 hinv2
        exact ⟨h1, h2, Nat.le_trans hle h3⟩

/-- `parrallelize_subcomponent` on a weak component of the input graph. -/
theorem parrallelize_subcomponent_ok {C : DiGraph} {c : Nat}
    {out : DiGraph × Nat}
    (hok : parrallelize_subcomponent C c = .ok out)
    (hwf : Wf C) (htopo : ∃ L, IsTopo C L)
    (huser : ∀ a ∈ C.nodes, a.dependencies ≠ none) (hne : C.nodes ≠ []) :
    SubOk C.nodes c out.2 out.1 ∧ out.1.nodes ≠ [] ∧ c ≤ out.2 := by
  refine parrallelizeAux_ok _ C DiGraph.empty c out hok ?_
  refine ⟨hwf, htopo, huser, fun a ha => ha, ?_, ?_, Or.inl hne⟩
  · intro a ha
    cases ha
  · refine ⟨wf_empty, ⟨[], isTopo_empty⟩, ?_, ?_, ?_, Nat.le_refl c⟩
    · intro a ha
      cases ha
    · show ([] : List Action).filter forkShape = _
      rw [List.filter_nil]
      rw [Nat.sub_self]
      rfl
    · show ([] : List Action).filter joinShape = _
      rw [List.filter_nil]
      rw [Nat.sub_self]
      rfl

/-! ### Composing the structured components -/

theorem empty_compose (G : DiGraph) : DiGraph.empty.compose G = G := by
  cases G with
  | mk N E =>
    show (⟨[] ++ N.filter _, [] ++ E.filter _⟩ : DiGraph) = _
    congr 1
    · rw [List.nil_append]
      exact List.filter_eq_self.mpr (fun a ha => by simp [DiGraph.empty])
    · rw [List.nil_append]
      exact List.filter_eq_self.mpr (fun e he => by simp [DiGraph.empty])

/-- The graph obtained by composing a list of graphs in order. -/
def composeList (gs : List DiGraph) : DiGraph :=
  gs.foldl DiGraph.compose DiGraph.empty

theorem composeList_cons (g : DiGraph) (gs : List DiGraph) :
    composeList (g :: gs) = gs.foldl DiGraph.compose g := by
  show gs.foldl DiGraph.compose (DiGraph.empty.compose g) = _
  rw [empty_compose]

theorem composeList_append_one (gs : List DiGraph) (s : DiGraph) :
    composeList (gs ++ [s]) = (composeList gs).compose s := by
  unfold composeList
  rw [List.foldl_append]
  rfl

theorem mem_foldl_compose {a : Action} :
    ∀ (gs : List DiGraph) (g : DiGraph), a ∈ g.nodes →
      a ∈ (gs.foldl DiGraph.compose g).nodes := by
  intro gs
  induction gs with
  | nil => intro g h; exact h
  | cons x rest ih =>
    intro g h
    refine ih (g.compose x) ?_
    show a ∈ g.nodes ++ _
    exact List.mem_append.mpr (Or.inl h)

theorem SubOk.mono {users users' : List Action} {lo hi : Nat} {s : DiGraph}
    (h : SubOk users lo hi s) (hsub : ∀ a ∈ users, a ∈ users') :
    SubOk users' lo hi s := by
  refine ⟨h.wf, h.topo, ?_, h.forks, h.joins, h.lohi⟩
  intro a ha
  rcases h.prov a ha with ⟨h1, h2⟩ | h2
  · exact Or.inl ⟨hsub a h1, h2⟩
  · exact Or.inr h2

theorem range'_glue {c0 c1 c2 : Nat} (h01 : c0 ≤ c1) (h12 : c1 ≤ c2) :
    List.range' c0 (c1 - c0) ++ List.range' c1 (c2 - c1) =
      List.range' c0 (c2 - c0) := by
  have h1 : c1 = c0 + (c1 - c0) := by omega
  have h2 : c2 - c0 = (c2 - c1) + (c1 - c0) := by omega
  rw [h2, ← List.range'_append_1 c0 (c1 - c0) (c2 - c1), ← h1]

/-- Two structured graphs over adjacent counter ranges compose to a
structured graph over the union range. -/
theorem SubOk.compose {users : List Action} {c0 c1 c2 : Nat} {s1 s2 : DiGraph}
    (h1 : SubOk users c0 c1 s1) (h2 : SubOk users c1 c2 s2)
    (hd : ∀ a ∈ s2.nodes, a ∉ s1.nodes) :
    SubOk users c0 c2 (s1.compose s2) := by
  have hn := compose_nodes_of_disjoint s1 s2 hd
  obtain ⟨L1, hL1⟩ := h1.topo
  obtain ⟨L2, hL2⟩ := h2.topo
  refine ⟨wf_compose _ _ h1.wf h2.wf hd,
    ⟨L1 ++ L2, isTopo_compose hL1 hL2 h1.wf h2.wf hd⟩, ?_, ?_, ?_, ?_⟩
  · intro a ha
    rw [hn] at ha
    rcases List.mem_append.mp ha with h | h
    · rcases h1.prov a h with hu | ⟨i, hi1, hi2, hi3⟩
      · exact Or.inl hu
      · refine Or.inr ⟨i, hi1, ?_, hi3⟩
        have := h2.lohi
        omega
    · rcases h2.prov a h with hu | ⟨i, hi1, hi2, hi3⟩
      · exact Or.inl hu
      · refine Or.inr ⟨i, ?_, hi2, hi3⟩
        have := h1.lohi
        omega
  · show (s1.compose s2).nodes.filter forkShape = _
    rw [hn, List.filter_append, h1.forks, h2.forks, ← List.map_append,
      range'_glue h1.lohi h2.lohi]
  · show (s1.compose s2).nodes.filter joinShape = _
    rw [hn, List.filter_append, h1.joins, h2.joins, ← List.map_append,
      range'_glue h1.lohi h2.lohi]
  · have := h1.lohi
    have := h2.lohi
    omega

/-! ### Facts about the input-graph construction -/

theorem mem_addNodesFrom_nodes {x : Action} :
    ∀ (l : List Action) (G : DiGraph), x ∈ (G.addNodesFrom l).nodes →
      x ∈ G.nodes ∨ x ∈ l := by
  intro l
  induction l with
  | nil => intro G h; exact Or.inl h
  | cons a rest ih =>
    intro G h
    rcases ih (G.addNode a) h with h | h
    · rcases addNode_nodes_sub G a x h with h | h
      · exact Or.inl h
      · exact Or.inr (h ▸ List.mem_cons_self _ _)
    · exact Or.inr (List.mem_cons_of_mem _ h)

theorem mem_addEdgesFrom_nodes {x : Action} :
    ∀ (es : List (Action × Action)) (G : DiGraph),
      x ∈ (G.addEdgesFrom es).nodes →
      x ∈ G.nodes ∨ ∃ e ∈ es, x = e.1 ∨ x = e.2 := by
  intro es
  induction es with
  | nil => intro G h; exact Or.inl h
  | cons e rest ih =>
    intro G h
    rcases ih (G.addEdge e.1 e.2) h with h | ⟨e2, he2, hx⟩
    · rcases addEdge_nodes_sub G e.1 e.2 x h with h | h
      · exact Or.inl h
      · exact Or.inr ⟨e, List.mem_cons_self _ _, h⟩
    · exact Or.inr ⟨e2, List.mem_cons_of_mem _ he2, hx⟩

theorem mapM_except_mem {α β : Type} {f : α → Except PyError β} :
    ∀ {ds : List α} {out : List β}, ds.mapM f = .ok out →
      ∀ b ∈ out, ∃ d ∈ ds, f d = .ok b := by
  intro ds
  induction ds with
  | nil =>
    intro out hok b hb
    rw [List.mapM_nil] at hok
    have hok2 : (Except.ok ([] : List β) : Except PyError (List β)) =
      .ok out := hok
    injection hok2 with h
    subst h
    cases hb
  | cons d rest ih =>
    intro out hok b hb
    rw [List.mapM_cons] at hok
    cases hf : f d with
    | error e =>
      rw [hf] at hok
      have hok2 : (Except.error e : Except PyError (List β)) = .ok out := hok
      cases hok2
    | ok y =>
      rw [hf] at hok
      cases hrest : rest.mapM f with
      | error e =>
        rw [hrest] at hok
        have hok2 : (Except.error e : Except PyError (List β)) = .ok out := hok
        cases hok2
      | ok ys =>
        rw [hrest] at hok
        have hok2 : (Except.ok (y :: ys) : Except PyError (List β)) =
          .ok out := hok
        injection hok2 with h
        subst h
        rcases List.mem_cons.mp hb with rfl | hb2
        · exact ⟨d, List.mem_cons_self _ _, hf⟩
        · obtain ⟨d2, hd2, hfd2⟩ := ih hrest b hb2
          exact ⟨d2, List.mem_cons_of_mem _ hd2, hfd2⟩

theorem depEdges_ok_facts {actionDict : List (String × Action)} :
    ∀ {l : List Action} {es : List (Action × Action)},
      depEdges actionDict l = .ok es →
      (∀ a ∈ l, a.dependencies ≠ none) ∧
      (∀ e ∈ es, (∃ p ∈ actionDict, p.2 = e.1) ∧ e.2 ∈ l) := by
  intro l
  induction l with
  | nil =>
    intro es hok
    have hok2 : (Except.ok ([] : List (Action × Action)) :
        Except PyError (List (Action × Action))) = .ok es := hok
    injection hok2 with h
    subst h
    exact ⟨fun a ha => absurd ha (List.not_mem_nil a),
      fun e he => absurd he (List.not_mem_nil e)⟩
  | cons b rest ih =>
    intro es hok
    unfold depEdges at hok
    cases hd : b.dependencies with
    | none =>
      rw [hd] at hok
      have hok2 : (Except.error PyError.typeError :
          Except PyError (List (Action × Action))) = .ok es := hok
      cases hok2
    | some ds =>
      rw [hd] at hok
      have hok1 : (ds.mapM (fun d =>
          match (actionDict.reverse.find? (fun p => p.1 = d)).map (·.2) with
          | some depAction => Except.ok (depAction, b)
          | none => Except.error (PyError.keyError d)) >>= fun here =>
            depEdges actionDict rest >>= fun there =>
              Except.ok (here ++ there)) = .ok es := hok
      cases hm : ds.mapM (fun d =>
          match (actionDict.reverse.find? (fun p => p.1 = d)).map (·.2) with
          | some depAction => Except.ok (depAction, b)
          | none => Except.error (PyError.keyError d)) with
      | error e =>
        rw [hm] at hok1
        have hok2 : (Except.error e :
            Except PyError (List (Action × Action))) = .ok es := hok1
        cases hok2
      | ok here =>
        rw [hm] at hok1
        cases hr : depEdges actionDict rest with
        | error e =>
          rw [hr] at hok1
          have hok2 : (Except.error e :
              Except PyError (List (Action × Action))) = .ok es := hok1
          cases hok2
        | ok there =>
          rw [hr] at hok1
          have hok2 : (Except.ok (here ++ there) :
              Except PyError (List (Action × Action))) = .ok es := hok1
          injection hok2 with h
          subst h
          obtain ⟨ih1, ih2⟩ := ih hr
          constructor
          · intro a ha
            rcases List.mem_cons.mp ha with rfl | ha2
            · rw [hd]
              intro h2
              cases h2
            · exact ih1 a ha2
          · intro e he
            rcases List.mem_append.mp he with h | h
            · obtain ⟨d, hdm, hfd⟩ := mapM_except_mem hm e h
              cases hfind : actionDict.reverse.find? (fun p => p.1 = d) with
              | none =>
                rw [hfind] at hfd
                have hfd2 : (Except.error (PyError.keyError d) :
                    Except PyError (Action × Action)) = .ok e := hfd
                cases hfd2
              | some p =>
                rw [hfind] at hfd
                have hfd2 : (Except.ok (p.2, b) :
                    Except PyError (Action × Action)) = .ok e := hfd
                injection hfd2 with h2
                subst h2
                refine ⟨⟨p, ?_, rfl⟩, List.mem_cons_self _ _⟩
                exact List.mem_reverse.mp (List.mem_of_find?_eq_some hfind)
            · obtain ⟨h1, h2⟩ := ih2 e h
              exact ⟨h1, List.mem_cons_of_mem _ h2⟩

/-- What a successful `build_input_graph` guarantees: the graph is
well-formed and every node is a user action carrying an explicit (possibly
empty) dependency list. -/
theorem build_input_graph_ok {w : Workflow} {G : DiGraph}
    (hok : build_input_graph w = .ok G) :
    Wf G ∧ (∀ a ∈ G.nodes, a.dependencies ≠ none) := by
  have hok2 : (depEdges (w.actions.map (fun a => (a.name, a))) w.actions >>=
      fun dependencies =>
        if ¬ (w.actions.flatMap (fun a => a.dependencies.getD [])).dedup.all
            (· ∈ (w.actions.map (fun a => (a.name, a))).map (·.1)) then
          Except.error (PyError.workflowGraphError (WGMsg.missingDependencies
            ((w.actions.flatMap (fun a => a.dependencies.getD [])).dedup.filter
              (· ∉ (w.actions.map (fun a => (a.name, a))).map (·.1)))))
        else
          Except.ok ((DiGraph.empty.addEdgesFrom dependencies).addNodesFrom
            w.actions)) = .ok G := hok
  cases hde : depEdges (w.actions.map (fun a => (a.name, a))) w.actions with
  | error e =>
    rw [hde] at hok2
    have hok3 : (Except.error e : Except PyError DiGraph) = .ok G := hok2
    cases hok3
  | ok deps =>
    rw [hde] at hok2
    have hok3 : (if ¬ (w.actions.flatMap
          (fun a => a.dependencies.getD [])).dedup.all
          (· ∈ (w.actions.map (fun a => (a.name, a))).map (·.1)) then
        Except.error (PyError.workflowGraphError (WGMsg.missingDependencies
          ((w.actions.flatMap (fun a => a.dependencies.getD [])).dedup.filter
            (· ∉ (w.actions.map (fun a => (a.name, a))).map (·.1)))))
      else
        Except.ok ((DiGraph.empty.addEdgesFrom deps).addNodesFrom
          w.actions)) = .ok G := hok2
    obtain ⟨hdeps, hmem⟩ := depEdges_ok_facts hde
    split at hok3
    · cases hok3
    · injection hok3 with h
      subst h
      refine ⟨wf_addNodesFrom _ _ (wf_addEdgesFrom _ _ wf_empty), ?_⟩
      intro a ha
      rcases mem_addNodesFrom_nodes w.actions _ ha with ha2 | ha2
      · rcases mem_addEdgesFrom_nodes deps _ ha2 with ha3 | ⟨e, he, hxe⟩
        · cases ha3
        · obtain ⟨⟨p, hp, hpe⟩, he2⟩ := hmem e he
          rcases hxe with rfl | rfl
          · obtain ⟨b, hb, hbp⟩ := List.mem_map.mp hp
            have : e.1 = b := by
              rw [← hpe, ← hbp]
            rw [this]
            exact hdeps b hb
          · exact hdeps e.2 he2
      · exact hdeps a ha2

/-! ### The final `process_components` stages -/

/-- Shape facts carried through the final `process_components` stages:
well-formed, topologically sortable, free of the `start`/`end` control
nodes, and holding exactly the fork/join pairs `0, …, hi - 1`. -/
structure FinOk (hi : Nat) (s : DiGraph) : Prop where
  wf : Wf s
  topo : ∃ L, IsTopo s L
  noStart : startAction ∉ s.nodes
  noEnd : endAction ∉ s.nodes
  forks : s.nodes.filter forkShape = (List.range' 0 hi).map mkFork
  joins : s.nodes.filter joinShape = (List.range' 0 hi).map mkJoin

theorem forkShape_eq_false_of_type {a : Action} (h : a.action_type ≠ "fork") :
    forkShape a = false := by
  unfold forkShape
  rw [beq_eq_false_iff_ne.mpr h]
  rfl

theorem joinShape_eq_false_of_type {a : Action} (h : a.action_type ≠ "join") :
    joinShape a = false := by
  unfold joinShape
  rw [beq_eq_false_iff_ne.mpr h]
  rfl

theorem SubOk.finOk {users : List Action} {hi : Nat} {s : DiGraph}
    (h : SubOk users 0 hi s) : FinOk hi s := by
  refine ⟨h.wf, h.topo, ?_, ?_, ?_, ?_⟩
  · intro hmem
    rcases h.prov _ hmem with ⟨h1, h2⟩ | ⟨i, hi1, hi2, hi3⟩
    · exact h2 rfl
    · rcases hi3 with heq | heq
      · exact startAction_ne_mkFork i heq
      · exact startAction_ne_mkJoin i heq
  · intro hmem
    rcases h.prov _ hmem with ⟨h1, h2⟩ | ⟨i, hi1, hi2, hi3⟩
    · exact h2 rfl
    · rcases hi3 with heq | heq
      · exact endAction_ne_mkFork i heq
      · exact endAction_ne_mkJoin i heq
  · have h2 := h.forks
    rwa [Nat.sub_zero] at h2
  · have h2 := h.joins
    rwa [Nat.sub_zero] at h2

/-- The top-level wrap stage preserves the structured-graph invariant,
adding one fork/join pair when it fires. -/
theorem pcWrap_subOk {users : List Action} {c : Nat} {R : DiGraph}
    (hs : SubOk users 0 c R) (hne : R.nodes ≠ []) :
    SubOk users 0 (pcWrap R c).2 (pcWrap R c).1 ∧
      (pcWrap R c).1.nodes ≠ [] ∧ c ≤ (pcWrap R c).2 := by
  by_cases hw1 : 1 < R.numberWcc
  case neg =>
    have hpc : pcWrap R c = (R, c) := by
      unfold pcWrap
      rw [if_neg hw1]
    rw [hpc]
    exact ⟨hs, hne, Nat.le_refl c⟩
  case pos =>
    obtain ⟨L, hL⟩ := hs.topo
    have hf : mkFork c ∉ R.nodes := hs.mkFork_not_mem (Nat.le_refl c)
    have hj : mkJoin c ∉ R.nodes := hs.mkJoin_not_mem (Nat.le_refl c)
    have hfj : mkFork c ≠ mkJoin c := mkFork_ne_mkJoin c c
    have hE : entryNodes R ≠ [] := hL.entryNodes_ne_nil hs.wf hne
    have hX : exitNodes R ≠ [] := hL.exitNodes_ne_nil hs.wf hne
    have heqw : R.addEdgesFrom (addForkJoin R c).1 =
        wired R (mkFork c) (mkJoin c) := wired_eq hs.wf hf hj hfj hE hX
    have hpc : pcWrap R c = (wired R (mkFork c) (mkJoin c), c + 1) := by
      unfold pcWrap
      rw [if_pos hw1, heqw]
      rfl
    rw [hpc]
    refine ⟨⟨wired_wf hs.wf hf hj hfj,
      ⟨_, wired_isTopo hs.wf hL hf hj hfj⟩, ?_, ?_, ?_, Nat.zero_le _⟩,
      ?_, Nat.le_succ c⟩
    · intro a ha
      rw [mem_wired_nodes] at ha
      rcases ha with ha | rfl | rfl
      · rcases hs.prov a ha with hu | ⟨i, hi1, hi2, hi3⟩
        · exact Or.inl hu
        · exact Or.inr ⟨i, hi1, by omega, hi3⟩
      · exact Or.inr ⟨c, Nat.zero_le c, by omega, Or.inl rfl⟩
      · exact Or.inr ⟨c, Nat.zero_le c, by omega, Or.inr rfl⟩
    · show (R.nodes ++ [mkFork c, mkJoin c]).filter forkShape =
        (List.range' 0 (c + 1 - 0)).map mkFork
      rw [List.filter_append, hs.forks]
      rw [show [mkFork c, mkJoin c].filter forkShape = [mkFork c] from by
        simp [List.filter_cons, forkShape_mkFork c, forkShape_mkJoin c]]
      exact range'_map_extend (Nat.zero_le c) mkFork
    · show (R.nodes ++ [mkFork c, mkJoin c]).filter joinShape =
        (List.range' 0 (c + 1 - 0)).map mkJoin
      rw [List.filter_append, hs.joins]
      rw [show [mkFork c, mkJoin c].filter joinShape = [mkJoin c] from by
        simp [List.filter_cons, joinShape_mkJoin c, joinShape_mkFork c]]
      exact range'_map_extend (Nat.zero_le c) mkJoin
    · show R.nodes ++ [mkFork c, mkJoin c] ≠ []
      simp

/-- The error-handler stage preserves the shape facts: when it runs at all
(and the subsequent `add_start_end` succeeded), it hangs the fresh handler
node off the unique exit node. -/
theorem pcError_finOk {eh : Option Action} {G1 G2 : DiGraph} {hi : Nat}
    {ces : List (Action × Action)}
    (hpe : pcError eh G1 = .ok G2) (hse : addStartEnd G2 = .ok ces)
    (hf : FinOk hi G1)
    (heh : ∀ h, eh = some h → h.action_type ≠ "start" ∧
      h.action_type ≠ "end" ∧ h.action_type ≠ "fork" ∧
      h.action_type ≠ "join") :
    FinOk hi G2 := by
  cases eh with
  | none =>
    have hpe2 : (Except.ok G1 : Except PyError DiGraph) = .ok G2 := hpe
    injection hpe2 with h
    subst h
    exact hf
  | some hnd =>
    obtain ⟨ht1, ht2, ht3, ht4⟩ := heh hnd rfl
    have hpe3 : ((if ((exitNodes G1).map (fun n => (n, hnd))).length ≠ 1 then
        Except.error (PyError.workflowGraphError .multipleErrorTransitions)
      else Except.ok ((exitNodes G1).map (fun n => (n, hnd)))) >>= fun edge =>
        Except.ok (G1.addEdgesFrom edge)) = .ok G2 := hpe
    by_cases hlen : ((exitNodes G1).map (fun n => (n, hnd))).length ≠ 1
    · rw [if_pos hlen] at hpe3
      have hpe4 : (Except.error
          (PyError.workflowGraphError .multipleErrorTransitions) :
          Except PyError DiGraph) = .ok G2 := hpe3
      cases hpe4
    · rw [if_neg hlen] at hpe3
      have hpe4 : (Except.ok
          (G1.addEdgesFrom ((exitNodes G1).map (fun n => (n, hnd)))) :
          Except PyError DiGraph) = .ok G2 := hpe3
      injection hpe4 with h
      have hlen2 : (exitNodes G1).length = 1 := by
        have h2 := not_ne_iff.mp hlen
        rwa [List.length_map] at h2
      obtain ⟨x, hx⟩ := List.length_eq_one.mp hlen2
      rw [hx] at h
      have hG2 : G2 = G1.addEdge x hnd := h.symm
      have hxmem : x ∈ G1.nodes :=
        mem_exitNodes_nodes (hx ▸ List.mem_singleton.mpr rfl)
      by_cases hmem : hnd ∈ G1.nodes
      · exfalso
        have hexit2 : exitNodes G2 = [] := by
          rw [hG2]
          exact addEdge_sink_mem_exitNodes_nil hx hmem
        have hse2 : (if ((entryNodes G2).map
              (fun n => (startAction, n))).length ≠ 1 ∨
            ((exitNodes G2).map (fun n => (n, endAction))).length ≠ 1 then
            Except.error (PyError.workflowGraphError .multipleStartEnd)
          else Except.ok ((entryNodes G2).map (fun n => (startAction, n)) ++
            (exitNodes G2).map (fun n => (n, endAction)))) = .ok ces := hse
        rw [if_pos (Or.inr (by rw [hexit2]; decide))] at hse2
        cases hse2
      · have hwf2 : Wf G2 := hG2 ▸ wf_addEdge _ _ _ hf.wf
        have hnodes2 : G2.nodes = G1.nodes ++ [hnd] := by
          rw [hG2, addEdge_mem_new hf.wf hxmem hmem]
        obtain ⟨L, hL⟩ := hf.topo
        refine ⟨hwf2, ⟨L ++ [hnd], ?_⟩, ?_, ?_, ?_, ?_⟩
        · rw [hG2]
          exact isTopo_addEdge_newSink hf.wf hL hxmem hmem
        · rw [hnodes2]
          intro hmem2
          rcases List.mem_append.mp hmem2 with h2 | h2
          · exact hf.noStart h2
          · exact ht1 (by rw [← List.mem_singleton.mp h2]; rfl)
        · rw [hnodes2]
          intro hmem2
          rcases List.mem_append.mp hmem2 with h2 | h2
          · exact hf.noEnd h2
          · exact ht2 (by rw [← List.mem_singleton.mp h2]; rfl)
        · rw [hnodes2, List.filter_append, hf.forks,
            show [hnd].filter forkShape = [] from by
              simp [List.filter_cons, forkShape_eq_false_of_type ht3],
            List.append_nil]
        · rw [hnodes2, List.filter_append, hf.joins,
            show [hnd].filter joinShape = [] from by
              simp [List.filter_cons, joinShape_eq_false_of_type ht4],
            List.append_nil]

/-- A successful `add_start_end` wires the fresh `start` and `end` control
nodes to the unique entry and exit node, making them the single entry and
the single exit of the final graph, preserving acyclicity and the fork/join
population. -/
theorem addStartEnd_final {G2 : DiGraph} {hi : Nat}
    {ces : List (Action × Action)}
    (hse : addStartEnd G2 = .ok ces) (hf : FinOk hi G2) :
    Wf (G2.addEdgesFrom ces) ∧
    entryNodes (G2.addEdgesFrom ces) = [startAction] ∧
    exitNodes (G2.addEdgesFrom ces) = [endAction] ∧
    (∃ L, IsTopo (G2.addEdgesFrom ces) L) ∧
    (G2.addEdgesFrom ces).nodes.filter forkShape =
      (List.range' 0 hi).map mkFork ∧
    (G2.addEdgesFrom ces).nodes.filter joinShape =
      (List.range' 0 hi).map mkJoin := by
  have hse2 : (if ((entryNodes G2).map
        (fun n => (startAction, n))).length ≠ 1 ∨
      ((exitNodes G2).map (fun n => (n, endAction))).length ≠ 1 then
      (Except.error (PyError.workflowGraphError .multipleStartEnd) :
        Except PyError (List (Action × Action)))
    else Except.ok ((entryNodes G2).map (fun n => (startAction, n)) ++
      (exitNodes G2).map (fun n => (n, endAction)))) = .ok ces := hse
  split at hse2
  · cases hse2
  case isFalse hcond =>
    injection hse2 with hces
    obtain ⟨hc1, hc2⟩ := not_or.mp hcond
    have hE : entryNodes G2 ≠ [] := by
      intro h0
      rw [h0] at hc1
      exact hc1 (by decide)
    have hX : exitNodes G2 ≠ [] := by
      intro h0
      rw [h0] at hc2
      exact hc2 (by decide)
    have hfj : startAction ≠ endAction := by decide
    have heqw : G2.addEdgesFrom ces = wired G2 startAction endAction := by
      rw [← hces]
      exact wired_eq hf.wf hf.noStart hf.noEnd hfj hE hX
    obtain ⟨L, hL⟩ := hf.topo
    refine ⟨?_, ?_, ?_, ?_, ?_, ?_⟩
    · rw [heqw]
      exact wired_wf hf.wf hf.noStart hf.noEnd hfj
    · rw [heqw]
      exact wired_entryNodes hf.wf hf.noStart hf.noEnd hfj hX
    · rw [heqw]
      exact wired_exitNodes hf.wf hf.noStart hf.noEnd hfj hE
    · rw [heqw]
      exact ⟨_, wired_isTopo hf.wf hL hf.noStart hf.noEnd hfj⟩
    · rw [heqw]
      show (G2.nodes ++ [startAction, endAction]).filter forkShape = _
      rw [List.filter_append, hf.forks,
        show [startAction, endAction].filter forkShape = [] from by decide,
        List.append_nil]
    · rw [heqw]
      show (G2.nodes ++ [startAction, endAction]).filter joinShape = _
      rw [List.filter_append, hf.joins,
        show [startAction, endAction].filter joinShape = [] from by decide,
        List.append_nil]

/-- `process_components` on a nonempty structured graph: the result has the
`start`/`end` nodes as unique entry and exit, stays acyclic, and carries
exactly the fork/join pairs numbered below the returned counter. -/
theorem processComponents_ok {eh : Option Action} {R : DiGraph} {c : Nat}
    {out : DiGraph × Nat} {users : List Action}
    (hok : processComponents eh R c = .ok out)
    (hs : SubOk users 0 c R) (hne : R.nodes ≠ [])
    (heh : ∀ h, eh = some h → h.action_type ≠ "start" ∧
      h.action_type ≠ "end" ∧ h.action_type ≠ "fork" ∧
      h.action_type ≠ "join") :
    Wf out.1 ∧ entryNodes out.1 = [startAction] ∧
    exitNodes out.1 = [endAction] ∧ (∃ L, IsTopo out.1 L) ∧
    out.1.nodes.filter forkShape = (List.range' 0 out.2).map mkFork ∧
    out.1.nodes.filter joinShape = (List.range' 0 out.2).map mkJoin ∧
    c ≤ out.2 := by
  obtain ⟨hs1, hne1, hle1⟩ := pcWrap_subOk hs hne
  have hok2 : (pcError eh (pcWrap R c).1 >>= fun G2 =>
      addStartEnd G2 >>= fun ces =>
        Except.ok (G2.addEdgesFrom ces, (pcWrap R c).2)) = .ok out := hok
  cases hpe : pcError eh (pcWrap R c).1 with
  | error e =>
    rw [hpe] at hok2
    have hok3 : (Except.error e : Except PyError (DiGraph × Nat)) =
      .ok out := hok2
    cases hok3
  | ok G2 =>
    rw [hpe] at hok2
    have hok3 : (addStartEnd G2 >>= fun ces =>
        Except.ok (G2.addEdgesFrom ces, (pcWrap R c).2)) = .ok out := hok2
    cases hse : addStartEnd G2 with
    | error e =>
      rw [hse] at hok3
      have hok4 : (Except.error e : Except PyError (DiGraph × Nat)) =
        .ok out := hok3
      cases hok4
    | ok ces =>
      rw [hse] at hok3
      have hok4 : (Except.ok (G2.addEdgesFrom ces, (pcWrap R c).2) :
          Except PyError (DiGraph × Nat)) = .ok out := hok3
      injection hok4 with h
      subst h
      have hf2 : FinOk (pcWrap R c).2 G2 := pcError_finOk hpe hse hs1.finOk heh
      obtain ⟨w1, w2, w3, w4, w5, w6⟩ := addStartEnd_final hse hf2
      exact ⟨w1, w2, w3, w4, w5, w6, hle1⟩

/-! ### The fold over the weak components -/

/-- Folding `process_subcomponent` over the (pairwise-disjoint) weak
components accumulates a structured graph per component; their ordered
composition is a structured graph over the whole node set, with the
fork/join counter growing monotonically. -/
theorem comps_fold_ok {G : DiGraph} {LG : List Action} (hwG : Wf G)
    (htG : IsTopo G LG) (hdep : ∀ a ∈ G.nodes, a.dependencies ≠ none) :
    ∀ (comps : List (List Action)) (subs : List DiGraph) (c : Nat)
      (out : List DiGraph × Nat),
      (∀ cm ∈ comps, ∀ a ∈ cm, a ∈ G.nodes) →
      (∀ cm ∈ comps, cm ≠ []) →
      (∀ cm ∈ comps, ∀ a ∈ cm, a ∉ (composeList subs).nodes) →
      comps.Pairwise (fun c1 c2 => ∀ a ∈ c1, a ∉ c2) →
      SubOk G.nodes 0 c (composeList subs) →
      (∀ s ∈ subs, s.nodes ≠ []) →
      ((comps.map G.subgraphOf).foldlM
        (fun (st : List DiGraph × Nat) comp => do
          let (s, c2) ← process_subcomponent comp st.2
          pure (st.1 ++ [s], c2))
        (subs, c)) = .ok out →
      SubOk G.nodes 0 out.2 (composeList out.1) ∧ c ≤ out.2 ∧
        (∀ s ∈ out.1, s.nodes ≠ []) := by
  intro comps
  induction comps with
  | nil =>
    intro subs c out hG hnec hdisj hpw sok hsne hok
    have hok2 : (Except.ok (subs, c) :
        Except PyError (List DiGraph × Nat)) = .ok out := hok
    injection hok2 with h
    subst h
    exact ⟨sok, Nat.le_refl c, hsne⟩
  | cons cm rest ih =>
    intro subs c out hG hnec hdisj hpw sok hsne hok
    have hok2 : ((do
        let (s, c2) ← process_subcomponent (G.subgraphOf cm) c
        pure (subs ++ [s], c2) : Except PyError (List DiGraph × Nat)) >>=
          fun st => (rest.map G.subgraphOf).foldlM
            (fun (st : List DiGraph × Nat) comp => do
              let (s, c2) ← process_subcomponent comp st.2
              pure (st.1 ++ [s], c2)) st) = .ok out := hok
    cases hps : process_subcomponent (G.subgraphOf cm) c with
    | error e =>
      rw [hps] at hok2
      have hok3 : (Except.error e :
          Except PyError (List DiGraph × Nat)) = .ok out := hok2
      cases hok3
    | ok sc =>
      rw [hps] at hok2
      have hok3 : (rest.map G.subgraphOf).foldlM
          (fun (st : List DiGraph × Nat) comp => do
            let (s, c2) ← process_subcomponent comp st.2
            pure (st.1 ++ [s], c2)) (subs ++ [sc.1], sc.2) = .ok out := hok2
      have hcmne : cm ≠ [] := hnec cm (List.mem_cons_self _ _)
      have hcmG : ∀ a ∈ cm, a ∈ G.nodes := hG cm (List.mem_cons_self _ _)
      have hsubne2 : (G.subgraphOf cm).nodes ≠ [] := by
        obtain ⟨a, ha⟩ := List.exists_mem_of_ne_nil _ hcmne
        exact List.ne_nil_of_mem (mem_subgraphOf_nodes.mpr ⟨hcmG a ha, ha⟩)
      have hsubtopo : ∃ L, IsTopo (G.subgraphOf cm) L :=
        ⟨_, isTopo_of_filter htG (fun a => a ∈ cm) (fun a => inferInstance)
          (fun a => mem_subgraphOf_nodes) (fun e he => subgraphOf_edges_sub he)⟩
      have huser : ∀ a ∈ (G.subgraphOf cm).nodes, a.dependencies ≠ none :=
        fun a ha => hdep a (mem_subgraphOf_nodes.mp ha).1
      obtain ⟨hsok, hsnonempty, hcle⟩ := parrallelize_subcomponent_ok hps
        (wf_subgraphOf _ _ hwG) hsubtopo huser hsubne2
      have hsokG : SubOk G.nodes c sc.2 sc.1 :=
        hsok.mono (fun a ha => (mem_subgraphOf_nodes.mp ha).1)
      have hdisj2 : ∀ a ∈ sc.1.nodes, a ∉ (composeList subs).nodes := by
        intro a ha hmem
        rcases hsok.prov a ha with ⟨h1, h2⟩ | ⟨i, hi1, hi2, hfj⟩
        · exact hdisj cm (List.mem_cons_self _ _) a
            (mem_subgraphOf_nodes.mp h1).2 hmem
        · rcases hfj with rfl | rfl
          · exact sok.mkFork_not_mem hi1 hmem
          · exact sok.mkJoin_not_mem hi1 hmem
      have hsok2 : SubOk G.nodes 0 sc.2 (composeList (subs ++ [sc.1])) := by
        rw [composeList_append_one]
        exact sok.compose hsokG hdisj2
      have hdisj3 : ∀ cm2 ∈ rest, ∀ a ∈ cm2,
          a ∉ (composeList (subs ++ [sc.1])).nodes := by
        intro cm2 hcm2 a ha hmem
        rw [composeList_append_one,
          compose_nodes_of_disjoint _ _ hdisj2] at hmem
        rcases List.mem_append.mp hmem with h2 | h2
        · exact hdisj cm2 (List.mem_cons_of_mem _ hcm2) a ha h2
        · rcases hsok.prov a h2 with ⟨h3, h4⟩ | ⟨i, hi1, hi2, hfj⟩
          · exact (List.pairwise_cons.mp hpw).1 cm2 hcm2 a
              (mem_subgraphOf_nodes.mp h3).2 ha
          · have hadep := hdep a (hG cm2 (List.mem_cons_of_mem _ hcm2) a ha)
            rcases hfj with rfl | rfl
            · exact hadep (mkFork_dependencies i)
            · exact hadep (mkJoin_dependencies i)
      have hsne2 : ∀ s ∈ subs ++ [sc.1], s.nodes ≠ [] := by
        intro s hsm
        rcases List.mem_append.mp hsm with h2 | h2
        · exact hsne s h2
        · rw [List.mem_singleton.mp h2]
          exact hsnonempty
      obtain ⟨hsok3, hle3, hsne3⟩ := ih (subs ++ [sc.1]) sc.2 out
        (fun cm2 h2 => hG cm2 (List.mem_cons_of_mem _ h2))
        (fun cm2 h2 => hnec cm2 (List.mem_cons_of_mem _ h2))
        hdisj3 (List.pairwise_cons.mp hpw).2 hsok2 hsne2 hok3
      exact ⟨hsok3, Nat.le_trans hcle hle3, hsne3⟩

/-- What a successful `build_workflow_dag` run (with the per-run counter at
0) guarantees, given a well-formed acyclic input graph of user actions. -/
theorem build_workflow_dag_ok {eh : Option Action} {G : DiGraph}
    {out : DiGraph × Nat} {LG : List Action}
    (hok : build_workflow_dag eh G 0 = .ok out)
    (hwG : Wf G) (htG : IsTopo G LG)
    (hdep : ∀ a ∈ G.nodes, a.dependencies ≠ none)
    (heh : ∀ h, eh = some h → h.action_type ≠ "start" ∧
      h.action_type ≠ "end" ∧ h.action_type ≠ "fork" ∧
      h.action_type ≠ "join") :
    Wf out.1 ∧ entryNodes out.1 = [startAction] ∧
    exitNodes out.1 = [endAction] ∧ (∃ L, IsTopo out.1 L) ∧
    out.1.nodes.filter forkShape = (List.range' 0 out.2).map mkFork ∧
    out.1.nodes.filter joinShape = (List.range' 0 out.2).map mkJoin := by
  have hok2 : (((wccList G).map G.subgraphOf).foldlM
      (fun (st : List DiGraph × Nat) comp => do
        let (s, c2) ← process_subcomponent comp st.2
        pure (st.1 ++ [s], c2)) ([], 0) >>= fun sc =>
      DiGraph.composeAll sc.1 >>= fun composed =>
        processComponents eh composed sc.2) = .ok out := hok
  cases hfold : ((wccList G).map G.subgraphOf).foldlM
      (fun (st : List DiGraph × Nat) comp => do
        let (s, c2) ← process_subcomponent comp st.2
        pure (st.1 ++ [s], c2)) ([], 0) with
  | error e =>
    rw [hfold] at hok2
    have hok3 : (Except.error e : Except PyError (DiGraph × Nat)) =
      .ok out := hok2
    cases hok3
  | ok sc =>
    rw [hfold] at hok2
    have hok3 : (DiGraph.composeAll sc.1 >>= fun composed =>
        processComponents eh composed sc.2) = .ok out := hok2
    have winv := wccList_inv G hwG
    have sok0 : SubOk G.nodes 0 0 (composeList []) := by
      refine ⟨wf_empty, ⟨[], isTopo_empty⟩, ?_, rfl, rfl, Nat.le_refl 0⟩
      intro a ha
      cases ha
    obtain ⟨soky, hley, hsney⟩ := comps_fold_ok hwG htG hdep (wccList G)
      [] 0 sc winv.compsG winv.compsNe
      (fun cm _ a _ h => absurd h (List.not_mem_nil a))
      winv.disj sok0 (fun s hs => absurd hs (List.not_mem_nil s)) hfold
    cases hca : DiGraph.composeAll sc.1 with
    | error e =>
      rw [hca] at hok3
      have hok4 : (Except.error e : Except PyError (DiGraph × Nat)) =
        .ok out := hok3
      cases hok4
    | ok composed =>
      rw [hca] at hok3
      have hok4 : processComponents eh composed sc.2 = .ok out := hok3
      have hkey : composed = composeList sc.1 ∧ composed.nodes ≠ [] := by
        cases hsc1 : sc.1 with
        | nil =>
          rw [hsc1] at hca
          have hca2 : (Except.error PyError.valueError :
              Except PyError DiGraph) = .ok composed := hca
          cases hca2
        | cons g gs =>
          rw [hsc1] at hca
          have hca2 : (Except.ok (gs.foldl DiGraph.compose g) :
              Except PyError DiGraph) = .ok composed := hca
          injection hca2 with h
          have hgne : g.nodes ≠ [] :=
            hsney g (by rw [hsc1]; exact List.mem_cons_self _ _)
          obtain ⟨a, ha⟩ := List.exists_mem_of_ne_nil _ hgne
          constructor
          · rw [← h, composeList_cons]
          · rw [← h]
            exact List.ne_nil_of_mem (mem_foldl_compose gs g ha)
      obtain ⟨hceq, hcne⟩ := hkey
      rw [hceq] at hok4 hcne
      obtain ⟨w1, w2, w3, w4, w5, w6, _⟩ :=
        processComponents_ok hok4 soky hcne heh
      exact ⟨w1, w2, w3, w4, w5, w6⟩

/-- Top-level pipeline guarantee: on any input on which
`build_workflow_graph` succeeds (with an error handler, if any, that is not
one of the reserved control types), the structured graph has `start` as its
unique entry, `end` as its unique exit, is acyclic, and carries exactly the
fork/join pairs numbered below the returned counter. -/
theorem build_workflow_graph_ok {w : Workflow} {out : DiGraph × Nat}
    (hok : build_workflow_graph w = .ok out)
    (heh : ∀ h, w.error_handler = some h → h.action_type ≠ "start" ∧
      h.action_type ≠ "end" ∧ h.action_type ≠ "fork" ∧
      h.action_type ≠ "join") :
    Wf out.1 ∧ entryNodes out.1 = [startAction] ∧
    exitNodes out.1 = [endAction] ∧ (∃ L, IsTopo out.1 L) ∧
    out.1.nodes.filter forkShape = (List.range' 0 out.2).map mkFork ∧
    out.1.nodes.filter joinShape = (List.range' 0 out.2).map mkJoin := by
  have hok2 : (build_input_graph w >>= fun inputGraph =>
      if ¬ isDirectedAcyclicGraph inputGraph then
        Except.error (PyError.workflowGraphError .cyclicDependencies)
      else build_workflow_dag w.error_handler inputGraph 0) = .ok out := hok
  cases hbi : build_input_graph w with
  | error e =>
    rw [hbi] at hok2
    have hok3 : (Except.error e : Except PyError (DiGraph × Nat)) =
      .ok out := hok2
    cases hok3
  | ok G =>
    rw [hbi] at hok2
    have hok3 : (if ¬ isDirectedAcyclicGraph G then
        Except.error (PyError.workflowGraphError .cyclicDependencies)
      else build_workflow_dag w.error_handler G 0) = .ok out := hok2
    split at hok3
    · cases hok3
    case isFalse hdag =>
      obtain ⟨hwG, hdep⟩ := build_input_graph_ok hbi
      have hsome : (kahnSort G).isSome = true := by
        by_contra h2
        exact hdag (by
          show ¬ isDirectedAcyclicGraph G = true
          unfold isDirectedAcyclicGraph
          intro h3
          exact h2 h3)
      obtain ⟨LG, hLG⟩ := Option.isSome_iff_exists.mp hsome
      exact build_workflow_dag_ok hok3 hwG (kahnSort_isTopo hwG hLG) hdep heh

/-- Claim C2: for every acyclic input action set on which the pipeline
succeeds (with an error handler, if any, that does not use one of the
reserved control action types `start`/`end`/`fork`/`join`), the final
structured control-flow graph is acyclic, its unique in-degree-0 node is
the `start` node, and its unique out-degree-0 node is the `end` node. -/
theorem claim_C2_acyclic_single_entry_exit {w : Workflow}
    {out : DiGraph × Nat} (hok : build_workflow_graph w = .ok out)
    (heh : ∀ h, w.error_handler = some h → h.action_type ≠ "start" ∧
      h.action_type ≠ "end" ∧ h.action_type ≠ "fork" ∧
      h.action_type ≠ "join") :
    out.1.Acyclic ∧ entryNodes out.1 = [startAction] ∧
      exitNodes out.1 = [endAction] := by
  obtain ⟨w1, w2, w3, ⟨L, hL⟩, _, _⟩ := build_workflow_graph_ok hok heh
  exact ⟨hL.acyclic w1, w2, w3⟩

/-- The structured graph the pipeline produces for scenario 3 (`A`, `B`
depending on `A`, plus error handler `H`). -/
def errScenarioGraph : DiGraph :=
  ⟨[actA, actB, actH, startAction, endAction],
   [(actA, actB), (actB, actH), (startAction, actA), (actH, endAction)]⟩

theorem claim_C2_witness :
    build_workflow_graph scenario3 = .ok (errScenarioGraph, 0) ∧
      (errScenarioGraph.Acyclic ∧
        entryNodes errScenarioGraph = [startAction] ∧
        exitNodes errScenarioGraph = [endAction]) := by
  have h1 : (build_workflow_graph scenario3).toOption =
      some (errScenarioGraph, 0) := by decide
  have hok : build_workflow_graph scenario3 = .ok (errScenarioGraph, 0) := by
    cases h2 : build_workflow_graph scenario3 with
    | error e =>
      rw [h2] at h1
      cases h1
    | ok v =>
      rw [h2] at h1
      injection h1 with h3
      rw [h3]
  refine ⟨hok, claim_C2_acyclic_single_entry_exit hok ?_⟩
  intro h hh
  rw [show scenario3.error_handler = some actH from rfl] at hh
  injection hh with h2
  subst h2
  exact ⟨by decide, by decide, by decide, by decide⟩

/-- Claim C7: on every successful run (with an error handler, if any, that
does not use one of the reserved control action types), the fork-shaped
nodes of the final graph are exactly `fork-0 … fork-(k-1)` and the
join-shaped nodes exactly `join-0 … join-(k-1)`, for `k` the final value
of the per-run counter: every `fork-i` has the matching `join-i` and vice
versa, no index repeats, and all indices come from the one increasing
counter shared by intra-component and top-level synthesis. -/
theorem claim_C7_fork_join_pairing {w : Workflow} {out : DiGraph × Nat}
    (hok : build_workflow_graph w = .ok out)
    (heh : ∀ h, w.error_handler = some h → h.action_type ≠ "start" ∧
      h.action_type ≠ "end" ∧ h.action_type ≠ "fork" ∧
      h.action_type ≠ "join") :
    out.1.nodes.filter forkShape = (List.range out.2).map mkFork ∧
      out.1.nodes.filter joinShape = (List.range out.2).map mkJoin := by
  obtain ⟨_, _, _, _, w5, w6⟩ := build_workflow_graph_ok hok heh
  rw [List.range_eq_range']
  exact ⟨w5, w6⟩

/-- The structured graph the pipeline produces for scenario 2 (`A`, with
`B` and `C` both depending on `A`). -/
def forkScenarioGraph : DiGraph :=
  ⟨[actA, actB, actC, mkFork 0, mkJoin 0, startAction, endAction],
   [(mkFork 0, actB), (mkFork 0, actC), (actB, mkJoin 0), (actC, mkJoin 0),
    (actA, mkFork 0), (startAction, actA), (mkJoin 0, endAction)]⟩

theorem claim_C7_witness :
    build_workflow_graph scenario2 = .ok (forkScenarioGraph, 1) ∧
      (forkScenarioGraph.nodes.filter forkShape =
          (List.range 1).map mkFork ∧
        forkScenarioGraph.nodes.filter joinShape =
          (List.range 1).map mkJoin) := by
  have h1 : (build_workflow_graph scenario2).toOption =
      some (forkScenarioGraph, 1) := by decide
  have hok : build_workflow_graph scenario2 = .ok (forkScenarioGraph, 1) := by
    cases h2 : build_workflow_graph scenario2 with
    | error e =>
      rw [h2] at h1
      cases h1
    | ok v =>
      rw [h2] at h1
      injection h1 with h3
      rw [h3]
  refine ⟨hok, claim_C7_fork_join_pairing hok ?_⟩
  intro h hh
  rw [show scenario2.error_handler = none from rfl] at hh
  cases hh

end Woozie
